import Mathlib

/-!
Verification development for the calculator repository.

`Calc.Dec` and its operations embed the Python `decimal.Decimal` values used
by `src/core/evaluator.py`: a value is `(-1)^neg * coeff * 10^exp`, arithmetic
results are rounded to the context precision of 28 significant digits with
round-half-even (`getcontext().prec = 28`), and a division with a zero divisor
signals, which `ExpressionEvaluator._evaluate_rpn` converts to the distinct
`ZeroDivisionError` (modelled as `EvalErr.zeroDivision`).

The evaluator pipeline (`normaliseExpression`, `scanTokens`,
`handleUnaryMinus`, `toRpn`, `evalRpnLoop`, `evaluate`, `formatDecimal`)
mirrors `ExpressionEvaluator`, and the session state machine
(`SessionState`, `handleButton`, `displayText`, ...) mirrors
`CalculatorWindow` from `src/ui/main_window.py`.  Python strings are
modelled as `List Char`.
-/

namespace Calc

abbrev Str := List Char
abbrev Token := List Char

deriving instance DecidableEq for Except

/-- Errors raised by the evaluator: `EvaluationError(msg)` or the distinct
`ZeroDivisionError` ("Division by zero"). -/
inductive EvalErr where
  | evalError (msg : String)
  | zeroDivision
deriving DecidableEq, Repr

/-- Python `Decimal` as sign, coefficient and exponent:
the value is `(-1)^neg * coeff * 10^exp`.  `neg = true, coeff = 0`
is the negative zero `Decimal("-0")`. -/
structure Dec where
  neg : Bool
  coeff : Nat
  exp : Int
deriving DecidableEq, Repr

/-- `getcontext().prec = 28` (evaluator.py line 20). -/
def PREC : Nat := 28

/-- Number of decimal digits of `n` (1 for 0 is not needed; callers use
positive `n`; fuel-based so the kernel can evaluate it). -/
def numDigitsAux : Nat → Nat → Nat
  | 0, _ => 0
  | fuel + 1, n => if n < 10 then 1 else numDigitsAux fuel (n / 10) + 1

def numDigits (n : Nat) : Nat := numDigitsAux (n + 1) n

/-- `n / d` rounded half-even (the context rounding `ROUND_HALF_EVEN`). -/
def roundHalfEvenDiv (n d : Nat) : Nat :=
  let q := n / d
  let r := n % d
  if d < 2 * r then q + 1
  else if 2 * r < d then q
  else if q % 2 = 0 then q else q + 1

/-- Round a result coefficient to the context precision of 28 significant
digits (the `_fix` step every Decimal arithmetic result goes through). -/
def decRound (neg : Bool) (c : Nat) (e : Int) : Dec :=
  if c < 10 ^ PREC then ⟨neg, c, e⟩
  else
    let k := numDigits c - PREC
    let c2 := roundHalfEvenDiv c (10 ^ k)
    if c2 < 10 ^ PREC then ⟨neg, c2, e + k⟩ else ⟨neg, c2 / 10, e + k + 1⟩

/-- `a + b` on Decimals: operands are aligned at the smaller exponent, the
exact signed sum is rounded to the context; an exactly zero sum is negative
only when both operands are negative (round-half-even context). -/
def decAdd (a b : Dec) : Dec :=
  let e := min a.exp b.exp
  let ca : Int := (a.coeff : Int) * 10 ^ (a.exp - e).toNat
  let cb : Int := (b.coeff : Int) * 10 ^ (b.exp - e).toNat
  let sa : Int := if a.neg then -ca else ca
  let sb : Int := if b.neg then -cb else cb
  let sum := sa + sb
  if sum = 0 then ⟨a.neg && b.neg, 0, e⟩
  else decRound (decide (sum < 0)) sum.natAbs e

/-- `a - b`: addition with the sign of `b` inverted. -/
def decSub (a b : Dec) : Dec := decAdd a ⟨!b.neg, b.coeff, b.exp⟩

/-- `a * b`: exact coefficient product, exponents added, then rounded. -/
def decMul (a b : Dec) : Dec :=
  decRound (a.neg != b.neg) (a.coeff * b.coeff) (a.exp + b.exp)

/-- Unary `-a` (`Decimal.__neg__`): a zero operand yields positive zero under
the default rounding; otherwise the sign flips; the result is rounded. -/
def decNeg (a : Dec) : Dec :=
  if a.coeff = 0 then ⟨false, 0, a.exp⟩
  else decRound (!a.neg) a.coeff a.exp

/-- Strip trailing zero digits, raising the exponent, for at most `fuel`
steps (used for exact division results and for `normalize`). -/
def stripZerosAux : Nat → Nat → Int → Nat × Int
  | 0, c, e => (c, e)
  | fuel + 1, c, e => if c % 10 = 0 then stripZerosAux fuel (c / 10) (e + 1) else (c, e)

/-- `a / b` on Decimals.  A zero divisor signals `DivisionByZero`
(or `DivisionUndefined` for `0/0`); `_evaluate_rpn` re-raises both as
`ZeroDivisionError`, modelled as `EvalErr.zeroDivision`.  Otherwise the
quotient is computed to 28 significant digits, rounded half-even; an exact
quotient is shortened towards the ideal exponent `a.exp - b.exp`. -/
def decDiv (a b : Dec) : Except EvalErr Dec :=
  if b.coeff = 0 then .error .zeroDivision
  else if a.coeff = 0 then .ok ⟨a.neg != b.neg, 0, a.exp - b.exp⟩
  else
    let sign := a.neg != b.neg
    let dn := numDigits a.coeff
    let dd := numDigits b.coeff
    let adjust : Int :=
      (dn : Int) - (dd : Int) - (if b.coeff * 10 ^ dn ≤ a.coeff * 10 ^ dd then 0 else 1)
    let shift : Int := (PREC : Int) - 1 - adjust
    let qn : Nat := a.coeff * 10 ^ shift.toNat
    let qd : Nat := b.coeff * 10 ^ (-shift).toNat
    let q := qn / qd
    let r := qn % qd
    let e0 : Int := a.exp - b.exp - shift
    if r = 0 then
      let p := stripZerosAux (a.exp - b.exp - e0).toNat q e0
      .ok ⟨sign, p.1, p.2⟩
    else
      let c2 := roundHalfEvenDiv qn qd
      if c2 < 10 ^ PREC then .ok ⟨sign, c2, e0⟩ else .ok ⟨sign, c2 / 10, e0 + 1⟩

def decZero : Dec := ⟨false, 0, 0⟩

/-- `Decimal("100")`, the divisor used by the percent operator. -/
def dec100 : Dec := ⟨false, 100, 0⟩

/-- The exact rational value of a Decimal. -/
def Dec.toRat (v : Dec) : ℚ :=
  (if v.neg then -1 else 1) * (v.coeff : ℚ) * (10 : ℚ) ^ v.exp

/-! ### Parsing numeric strings (the `Decimal` constructor on calculator input) -/

def charVal (c : Char) : Nat := c.toNat - 48

def digitsToNat (ds : Str) : Nat := ds.foldl (fun acc c => acc * 10 + charVal c) 0

/-- The `Decimal` string constructor, restricted to the sign/digits/point
strings that occur in this program (the tokeniser and the input session
never produce exponent notation).  Returns `none` where the constructor
raises `InvalidOperation`. -/
def parseDec (s : Str) : Option Dec :=
  let neg : Bool := s.head? == some '-'
  let body := if s.head? == some '-' || s.head? == some '+' then s.tail else s
  if body.isEmpty then none
  else if !(body.all fun c => c.isDigit || c == '.') then none
  else if body.count '.' > 1 then none
  else if !(body.any Char.isDigit) then none
  else
    let intp := body.takeWhile fun c => !(c == '.')
    let frac := (body.dropWhile fun c => !(c == '.')).tail
    some ⟨neg, digitsToNat (intp ++ frac), -(frac.length : Int)⟩

/-- `ExpressionEvaluator._is_number`. -/
def isNumber (t : Token) : Bool :=
  if t.isEmpty then false
  else if t.count '.' > 1 then false
  else if t == ['.'] then false
  else (parseDec t).isSome

/-! ### Tokenisation -/

/-- `_REPLACEMENTS`: map display glyphs to canonical operators. -/
def REPLACEMENTS (c : Char) : Char :=
  if c = '×' then '*' else if c = '÷' then '/' else if c = '−' then '-' else c

/-- `_normalise_expression`: strip spaces, then apply the replacements. -/
def normaliseExpression (s : Str) : Str :=
  (s.filter fun c => !(c == ' ')).map REPLACEMENTS

def digitOrDot (c : Char) : Bool := c.isDigit || c == '.'

/-- The scanning loop of `_tokenise`: a digit or `.` starts a greedy run of
digits and dots (more than one dot in a run is an invalid numeric literal),
any of `+-*/()%` is a one-character token, anything else is an invalid
character.  Fuel-based (each step consumes at least one character, so fuel
`s.length` suffices). -/
def scanAux : Nat → Str → Except EvalErr (List Token)
  | _, [] => .ok []
  | 0, _ :: _ => .ok []
  | fuel + 1, c :: rest =>
    if digitOrDot c then
      let run := c :: rest.takeWhile digitOrDot
      let remaining := rest.dropWhile digitOrDot
      if run.count '.' > 1 then .error (.evalError "Invalid numeric literal")
      else
        match scanAux fuel remaining with
        | .error e => .error e
        | .ok ts => .ok (run :: ts)
    else if c == '+' || c == '-' || c == '*' || c == '/' || c == '(' || c == ')' || c == '%' then
      match scanAux fuel rest with
      | .error e => .error e
      | .ok ts => .ok ([c] :: ts)
    else .error (.evalError "Invalid character in expression")

def scanTokens (s : Str) : Except EvalErr (List Token) := scanAux s.length s

/-- The `"u-"` token. -/
def uminusTok : Token := ['u', '-']

/-- The keys of `_OPERATORS`, in source order. -/
def OP_KEYS : List Token := [['+'], ['-'], ['*'], ['/'], ['%'], uminusTok]

/-- The condition of `_handle_unary_minus` on the previous emitted token:
`prev_token is None or prev_token in cls._OPERATORS or prev_token == "("`. -/
def unaryContext : Option Token → Bool
  | none => true
  | some p => OP_KEYS.contains p || p == ['(']

/-- The loop of `_handle_unary_minus`: rewrite `-` to `u-` when the previous
emitted token is absent, an operator key, or `(`; a `%` token does not
update the previous token. -/
def handleUnaryAux : Option Token → List Token → List Token
  | _, [] => []
  | prev, t :: ts =>
    let t2 := if t == ['-'] && unaryContext prev then uminusTok else t
    let prev2 := if t == ['%'] then prev else some t2
    t2 :: handleUnaryAux prev2 ts

def handleUnaryMinus (ts : List Token) : List Token := handleUnaryAux none ts

/-- The last token of `l` that is not `%`: what counts as "previous" for
unary-minus detection over an original token prefix (percent is postfix
and transparent to the detection). -/
def lastNonPct (l : List Token) : Option Token :=
  (l.filter fun t => !(t == ['%'])).getLast?

/-- The previous-token context at a position inside the loop: the last
non-`%` token of the prefix, or the inherited `prev` when the prefix has
none. -/
def ctxAt (prev : Option Token) (l : List Token) (i : Nat) : Option Token :=
  match lastNonPct (l.take i) with
  | some p => some p
  | none => prev

/-- `_tokenise`: scan, then disambiguate the unary minus. -/
def tokenise (s : Str) : Except EvalErr (List Token) :=
  match scanTokens s with
  | .error e => .error e
  | .ok ts => .ok (handleUnaryMinus ts)

/-! ### Operator table and shunting-yard -/

/-- `Operator` dataclass: precedence, associativity (`'L'`/`'R'`), arity and
the evaluation function (which can signal division by zero). -/
structure Operator where
  precedence : Nat
  associativity : Char
  operands : Nat
  function : List Dec → Except EvalErr Dec

def addFn : List Dec → Except EvalErr Dec
  | [a, b] => .ok (decAdd a b)
  | _ => .error (.evalError "Invalid operation")

def subFn : List Dec → Except EvalErr Dec
  | [a, b] => .ok (decSub a b)
  | _ => .error (.evalError "Invalid operation")

def mulFn : List Dec → Except EvalErr Dec
  | [a, b] => .ok (decMul a b)
  | _ => .error (.evalError "Invalid operation")

def divFn : List Dec → Except EvalErr Dec
  | [a, b] => decDiv a b
  | _ => .error (.evalError "Invalid operation")

def pctFn : List Dec → Except EvalErr Dec
  | [a] => decDiv a dec100
  | _ => .error (.evalError "Invalid operation")

def negFn : List Dec → Except EvalErr Dec
  | [a] => .ok (decNeg a)
  | _ => .error (.evalError "Invalid operation")

/-- `_OPERATORS`, as a lookup from token to operator record. -/
def OPERATORS (t : Token) : Option Operator :=
  if t == ['+'] then some ⟨1, 'L', 2, addFn⟩
  else if t == ['-'] then some ⟨1, 'L', 2, subFn⟩
  else if t == ['*'] then some ⟨2, 'L', 2, mulFn⟩
  else if t == ['/'] then some ⟨2, 'L', 2, divFn⟩
  else if t == ['%'] then some ⟨3, 'L', 1, pctFn⟩
  else if t == uminusTok then some ⟨4, 'R', 1, negFn⟩
  else none

/-- The inner `while` of `_to_rpn` for an operator token: pop
higher-or-equal precedence operators (strictly higher for right-associative)
to the output, stopping at `(` or a non-operator.  The stack has its top at
the head.  Returns (popped output, remaining stack). -/
def popOps (opInfo : Operator) : List Token → List Token × List Token
  | [] => ([], [])
  | top :: rest =>
    if top == ['('] then ([], top :: rest)
    else
      match OPERATORS top with
      | none => ([], top :: rest)
      | some topInfo =>
        if (opInfo.associativity == 'L' && Nat.ble opInfo.precedence topInfo.precedence)
            || (opInfo.associativity == 'R' && Nat.blt opInfo.precedence topInfo.precedence) then
          let p := popOps opInfo rest
          (top :: p.1, p.2)
        else ([], top :: rest)

/-- The `while` for `)` in `_to_rpn`: pop to the output until the matching
`(`, which is discarded; mismatched parentheses otherwise. -/
def popUntilParen : List Token → Except EvalErr (List Token × List Token)
  | [] => .error (.evalError "Mismatched parentheses")
  | top :: rest =>
    if top == ['('] then .ok ([], rest)
    else
      match popUntilParen rest with
      | .error e => .error e
      | .ok p => .ok (top :: p.1, p.2)

/-- The main loop of `_to_rpn` (shunting-yard), with the end-of-input flush:
a leftover `(` or `)` on the stack is a mismatched-parentheses error. -/
def toRpnLoop : List Token → List Token → List Token → Except EvalErr (List Token)
  | [], output, stack =>
    if stack.any (fun t => t == ['('] || t == [')']) then
      .error (.evalError "Mismatched parentheses")
    else .ok (output ++ stack)
  | t :: ts, output, stack =>
    if isNumber t then toRpnLoop ts (output ++ [t]) stack
    else if t == ['('] then toRpnLoop ts output (t :: stack)
    else if t == [')'] then
      match popUntilParen stack with
      | .error e => .error e
      | .ok p => toRpnLoop ts (output ++ p.1) p.2
    else
      match OPERATORS t with
      | some opInfo =>
        let p := popOps opInfo stack
        toRpnLoop ts (output ++ p.1) (t :: p.2)
      | none => .error (.evalError "Unknown token")

def toRpn (ts : List Token) : Except EvalErr (List Token) := toRpnLoop ts [] []

/-- `_evaluate_rpn`: evaluate the postfix token list on a value stack
(top at the head).  A binary operator pops `b` then `a` and applies
`f a b`.  Exactly one value must remain. -/
def evalRpnLoop : List Token → List Dec → Except EvalErr Dec
  | [], stack =>
    match stack with
    | [v] => .ok v
    | _ => .error (.evalError "Malformed expression")
  | t :: ts, stack =>
    if isNumber t then
      match parseDec t with
      | some d => evalRpnLoop ts (d :: stack)
      | none => .error (.evalError "Malformed expression")
    else
      match OPERATORS t with
      | none => .error (.evalError "Unknown operator during evaluation")
      | some op =>
        if stack.length < op.operands then .error (.evalError "Insufficient operands")
        else if op.operands == 1 then
          match stack with
          | a :: rest =>
            match op.function [a] with
            | .error e => .error e
            | .ok result => evalRpnLoop ts (result :: rest)
          | [] => .error (.evalError "Insufficient operands")
        else
          match stack with
          | b :: a :: rest =>
            match op.function [a, b] with
            | .error e => .error e
            | .ok result => evalRpnLoop ts (result :: rest)
          | _ => .error (.evalError "Insufficient operands")

/-- `ExpressionEvaluator.evaluate`: normalise, tokenise, convert to postfix,
evaluate. -/
def evaluate (s : Str) : Except EvalErr Dec :=
  match tokenise (normaliseExpression s) with
  | .error e => .error e
  | .ok tokens =>
    match toRpn tokens with
    | .error e => .error e
    | .ok rpn => evalRpnLoop rpn []

/-! ### Display formatting -/

/-- `Decimal.normalize()`: round to the context, then strip trailing zeros;
any zero becomes exponent 0 (sign preserved). -/
def normalizePy (v : Dec) : Dec :=
  let r := decRound v.neg v.coeff v.exp
  if r.coeff = 0 then ⟨r.neg, 0, 0⟩
  else
    let p := stripZerosAux (numDigits r.coeff) r.coeff r.exp
    ⟨r.neg, p.1, p.2⟩

/-- Decimal digits of `n`, most significant first (fuel-based). -/
def natDigitsAux : Nat → Nat → Str
  | 0, _ => []
  | fuel + 1, n => if n = 0 then [] else natDigitsAux fuel (n / 10) ++ [Char.ofNat (48 + n % 10)]

def natDigits (n : Nat) : Str := if n = 0 then ['0'] else natDigitsAux (n + 1) n

/-- `format(d, "f")`: plain fixed-point rendering, never exponent
notation. -/
def formatF (v : Dec) : Str :=
  let ds := natDigits v.coeff
  let body :=
    if 0 ≤ v.exp then ds ++ List.replicate v.exp.toNat '0'
    else
      let k := (-v.exp).toNat
      if ds.length ≤ k then '0' :: '.' :: (List.replicate (k - ds.length) '0' ++ ds)
      else ds.take (ds.length - k) ++ '.' :: ds.drop (ds.length - k)
  if v.neg then '-' :: body else body

/-- Python `str.rstrip` for a single strip character. -/
def rstrip (ch : Char) (s : Str) : Str := (s.reverse.dropWhile fun c => c == ch).reverse

/-- `ExpressionEvaluator.format_decimal`: normalize, render in fixed
notation, strip trailing zeros and a trailing point when a point is present,
and canonicalise `-0` / `-0.0` to `0`. -/
def formatDecimal (value : Dec) : Str :=
  let text0 := formatF (normalizePy value)
  let text := if text0.contains '.' then rstrip '.' (rstrip '0' text0) else text0
  if text == ['-', '0'] || text == ['-', '0', '.', '0'] then ['0'] else text

/-! ### The input session (`CalculatorWindow`, src/ui/main_window.py) -/

/-- The session state fields of `CalculatorWindow`. -/
structure SessionState where
  tokens : List Token
  currentInput : Str
  lastOutput : Str
  lastValue : Dec
  justEvaluated : Bool
  errorState : Bool
deriving DecidableEq, Repr

/-- `_clear_all` (also the `__init__` state). -/
def clearAllState : SessionState :=
  { tokens := [], currentInput := [], lastOutput := ['0'],
    lastValue := decZero, justEvaluated := false, errorState := false }

/-- `_show_error`. -/
def showError (s : SessionState) : SessionState :=
  { s with tokens := [], currentInput := [], lastOutput := "Error".data,
           errorState := true, justEvaluated := false }

/-- `_OPERATOR_MAP.values()` in source order: the canonical operators. -/
def opValues : List Token := [['+'], ['-'], ['*'], ['/']]

/-- `_OPERATOR_MAP`: display glyph to canonical operator. -/
def operatorMap (g : Str) : Token :=
  if g == ['+'] then ['+']
  else if g == ['−'] then ['-']
  else if g == ['×'] then ['*']
  else if g == ['÷'] then ['/']
  else g

/-- `_decimal_to_string`: canonical text of a Decimal for the token list. -/
def decimalToString (value : Dec) : Str :=
  let text0 := formatF (normalizePy value)
  let text := if text0.contains '.' then rstrip '.' (rstrip '0' text0) else text0
  if text == [] || text == ['-', '0'] || text == ['-', '0', '.', '0'] then ['0']
  else if text == ['-'] then ['0']
  else text

/-- `_canonical_to_display`. -/
def canonicalToDisplay (value : Str) : Str :=
  match parseDec value with
  | none => value
  | some d => formatDecimal d

/-- `_push_current_to_tokens`: commit the current input buffer; returns the
updated state and whether something was committed. -/
def pushCurrentToTokens (s : SessionState) : SessionState × Bool :=
  if s.currentInput.isEmpty || s.currentInput == ['-'] then (s, false)
  else
    match parseDec s.currentInput with
    | none => (showError s, false)
    | some value =>
      let canonical := decimalToString value
      ({ s with tokens := s.tokens ++ [canonical], lastValue := value,
                lastOutput := formatDecimal value, currentInput := [] }, true)

/-- `_find_last_number_index`: last index whose token is not an operator. -/
def findLastNumberIndex (ts : List Token) : Option Nat :=
  match ts.reverse.findIdx? (fun t => !(opValues.contains t)) with
  | some j => some (ts.length - 1 - j)
  | none => none

/-- `_append_digit` (the dispatcher passes the digit as a string). -/
def appendDigit (digit : Str) (s0 : SessionState) : SessionState :=
  let s1 := if s0.errorState then clearAllState else s0
  let s := if s1.justEvaluated then
      { s1 with tokens := [], currentInput := [], justEvaluated := false }
    else s1
  if s.currentInput == ['0'] || s.currentInput == ['-', '0'] then
    if digit == ['0'] then s
    else
      let ci0 := if s.currentInput.head? == some '-' then '-' :: digit else digit
      let ci := if ci0.isEmpty then digit else ci0
      { s with currentInput := ci, lastOutput := ci }
  else
    let ci0 := s.currentInput ++ digit
    let ci := if ci0.isEmpty then digit else ci0
    { s with currentInput := ci, lastOutput := ci }

/-- `_append_decimal`. -/
def appendDecimal (s0 : SessionState) : SessionState :=
  let s1 := if s0.errorState then clearAllState else s0
  let s := if s1.justEvaluated then
      { s1 with tokens := [], currentInput := [], justEvaluated := false }
    else s1
  let target := if s.currentInput.isEmpty then ['0'] else s.currentInput
  if target.contains '.' then s
  else
    let ci :=
      if target == ['-', '0'] then ['-', '0', '.']
      else if target.head? == some '-' && !(target == ['-', '0']) then target ++ ['.']
      else target ++ ['.']
    { s with currentInput := ci, lastOutput := ci }

/-- `_apply_operator`: in error state, full reset and stop; otherwise commit
the current input, seed an empty token list with the last value, and replace
a trailing operator or append the new one. -/
def applyOperator (symbol : Str) (s0 : SessionState) : SessionState :=
  if s0.errorState then clearAllState
  else
    let op := operatorMap symbol
    let s1 := if s0.justEvaluated then { s0 with tokens := [], justEvaluated := false } else s0
    let s2 := if !s1.currentInput.isEmpty then (pushCurrentToTokens s1).1 else s1
    let s3 := if s2.tokens.isEmpty then
        { s2 with tokens := s2.tokens ++ [decimalToString s2.lastValue] }
      else s2
    if !s3.tokens.isEmpty && opValues.contains (s3.tokens.getLastD []) then
      { s3 with tokens := s3.tokens.dropLast ++ [op] }
    else
      { s3 with tokens := s3.tokens ++ [op] }

/-- `"".join` of the committed tokens. -/
def joinTokens (ts : List Token) : Str := ts.foldl (fun acc t => acc ++ t) []

/-- `_calculate_result`. -/
def calculateResult (s0 : SessionState) : SessionState :=
  if s0.errorState then clearAllState
  else
    let s :=
      if !s0.currentInput.isEmpty then (pushCurrentToTokens s0).1
      else if !s0.tokens.isEmpty && opValues.contains (s0.tokens.getLastD []) then
        { s0 with tokens := s0.tokens.dropLast }
      else s0
    let expression := joinTokens s.tokens
    if expression.isEmpty then s
    else
      match evaluate expression with
      | .error _ => showError s
      | .ok result =>
        { s with lastValue := result,
                 currentInput := formatDecimal result,
                 lastOutput := formatDecimal result,
                 tokens := [],
                 justEvaluated := true }

/-- `_clear_entry`. -/
def clearEntry (s : SessionState) : SessionState :=
  if s.errorState then clearAllState
  else { s with currentInput := [], lastOutput := ['0'], justEvaluated := false }

/-- `_backspace`. -/
def backspace (s : SessionState) : SessionState :=
  if s.errorState then clearAllState
  else if s.currentInput.isEmpty then s
  else
    let ci0 := s.currentInput.dropLast
    let ci := if ci0 == [] || ci0 == ['-'] then [] else ci0
    { s with currentInput := ci,
             lastOutput := if ci.isEmpty then ['0'] else ci,
             justEvaluated := false }

/-- `_toggle_sign`. -/
def toggleSign (s0 : SessionState) : SessionState :=
  if s0.errorState then clearAllState
  else
    let s := if s0.currentInput.isEmpty then
        { s0 with currentInput := if s0.justEvaluated then s0.lastOutput else ['0'] }
      else s0
    let ci :=
      match s.currentInput with
      | '-' :: rest => rest
      | other => '-' :: other
    { s with currentInput := ci, lastOutput := ci, justEvaluated := false }

/-- `_apply_percent`.  Division by the nonzero constant 100 cannot signal,
so its error branch is unreachable. -/
def applyPercent (s : SessionState) : SessionState :=
  if s.errorState then clearAllState
  else if !s.currentInput.isEmpty then
    match parseDec s.currentInput with
    | none => showError s
    | some d =>
      match decDiv d dec100 with
      | .error _ => showError s
      | .ok value =>
        { s with currentInput := decimalToString value,
                 lastValue := value, lastOutput := formatDecimal value,
                 justEvaluated := false }
  else
    match findLastNumberIndex s.tokens with
    | none =>
      { s with currentInput := ['0'], lastValue := decZero,
               lastOutput := formatDecimal decZero, justEvaluated := false }
    | some i =>
      match parseDec (s.tokens.getD i []) with
      | none => showError s
      | some d =>
        match decDiv d dec100 with
        | .error _ => showError s
        | .ok value =>
          { s with tokens := s.tokens.set i (decimalToString value),
                   currentInput := decimalToString value,
                   lastValue := value, lastOutput := formatDecimal value,
                   justEvaluated := false }

/-- The text `_update_display` computes before canonicalisation. -/
def displayCandidate (s : SessionState) : Str :=
  if !s.currentInput.isEmpty then s.currentInput
  else if !s.tokens.isEmpty then
    let last := s.tokens.getLastD []
    if opValues.contains last then s.lastOutput else canonicalToDisplay last
  else s.lastOutput

/-- `_update_display` as a pure rendering rule: the error marker in error
state; otherwise the candidate text with `-0`/`-0.` minus-stripped and an
empty or lone `-` replaced by `0`. -/
def displayText (s : SessionState) : Str :=
  if s.errorState then "Error".data
  else
    let text0 := displayCandidate s
    let text := if text0 == ['-', '0'] || text0 == ['-', '0', '.'] then
        text0.filter fun c => !(c == '-')
      else text0
    if text.isEmpty || text == ['-'] then ['0'] else text

/-- `_handle_button`: dispatch a button label to its handler.  Unknown
labels fall through with no effect. -/
def handleButton (label : Str) (s : SessionState) : SessionState :=
  if !label.isEmpty && label.all Char.isDigit then appendDigit label s
  else if label == ['.'] then appendDecimal s
  else if label == ['+'] || label == ['−'] || label == ['×'] || label == ['÷'] then
    applyOperator label s
  else if label == ['='] then calculateResult s
  else if label == ['C'] then clearAllState
  else if label == "CE".data then clearEntry s
  else if label == ['⌫'] then backspace s
  else if label == ['±'] then toggleSign s
  else if label == ['%'] then applyPercent s
  else s

/-- Run a sequence of button events from the initial state. -/
def runButtons (labels : List Str) : SessionState :=
  labels.foldl (fun s l => handleButton l s) clearAllState

/-- Whether a committed token is one of the four canonical binary
operators (`_OPERATOR_MAP.values()`). -/
def isOpToken (t : Token) : Bool := opValues.contains t

/-- The committed token sequence ends in two consecutive binary
operators. -/
def trailingTwoOps (ts : List Token) : Bool :=
  Nat.ble 2 ts.length &&
    (isOpToken (ts.getD (ts.length - 1) []) && isOpToken (ts.getD (ts.length - 2) []))

/-! ### Supporting lemmas -/

/-- A Decimal has rational value zero exactly when its coefficient is 0. -/
theorem Dec.toRat_eq_zero_iff (v : Dec) : v.toRat = 0 ↔ v.coeff = 0 := by
  have h10 : (10 : ℚ) ^ v.exp ≠ 0 := zpow_ne_zero _ (by norm_num)
  cases hn : v.neg <;>
    simp [Dec.toRat, hn, mul_eq_zero, h10, Nat.cast_eq_zero]

end Calc

namespace Calc

/-- C1: `evaluate("2+3")` is 5, `evaluate("2+3*4")` is 14 (multiplication
binds tighter than addition), `evaluate("200*10%")` is 20 (postfix percent
applies to the literal 10 before the multiplication), and
`evaluate("5--3")` is 8 (binary minus followed by unary negation). -/
theorem evaluate_examples :
    (evaluate "2+3".data).map Dec.toRat = .ok 5 ∧
    (evaluate "2+3*4".data).map Dec.toRat = .ok 14 ∧
    (evaluate "200*10%".data).map Dec.toRat = .ok 20 ∧
    (evaluate "5--3".data).map Dec.toRat = .ok 8 := by
  have h1 : evaluate "2+3".data = .ok ⟨false, 5, 0⟩ := by decide
  have h2 : evaluate "2+3*4".data = .ok ⟨false, 14, 0⟩ := by decide
  have h3 : evaluate "200*10%".data = .ok ⟨false, 200, -1⟩ := by decide
  have h4 : evaluate "5--3".data = .ok ⟨false, 8, 0⟩ := by decide
  refine ⟨?_, ?_, ?_, ?_⟩ <;>
    simp [h1, h2, h3, h4, Except.map, Dec.toRat]
  norm_num

/-- C2: `evaluate("0/0")` fails with the distinguished division-by-zero
failure, and so does every division whose divisor has value zero; whereas
`evaluate("1//2")`, `evaluate("abc")` and `evaluate("(1+2")` fail with
generic `EvaluationError` kinds, not with the division-by-zero failure. -/
theorem evaluate_zero_division :
    evaluate "0/0".data = .error .zeroDivision ∧
    (∀ a b : Dec, b.toRat = 0 → decDiv a b = .error .zeroDivision) ∧
    evaluate "1//2".data = .error (.evalError "Insufficient operands") ∧
    evaluate "abc".data = .error (.evalError "Invalid character in expression") ∧
    evaluate "(1+2".data = .error (.evalError "Mismatched parentheses") := by
  refine ⟨by decide, ?_, by decide, by decide, by decide⟩
  intro a b hb
  have hc : b.coeff = 0 := (Dec.toRat_eq_zero_iff b).mp hb
  unfold decDiv
  simp [hc]

/-- Witness for C2 at a concrete division by zero (`1 / 0`). -/
theorem evaluate_zero_division_witness :
    decDiv ⟨false, 1, 0⟩ ⟨false, 0, 0⟩ = .error .zeroDivision :=
  evaluate_zero_division.2.1 ⟨false, 1, 0⟩ ⟨false, 0, 0⟩ (by norm_num [Dec.toRat])

/-- C10: `evaluate` on the empty string, and on an all-spaces string that
normalises to empty, fails with the generic `EvaluationError`
("Malformed expression"). -/
theorem evaluate_empty :
    evaluate "".data = .error (.evalError "Malformed expression") ∧
    evaluate "   ".data = .error (.evalError "Malformed expression") := by
  exact ⟨by decide, by decide⟩

/-- C8: while the sticky error flag is set, a binary-operator event and an
equals event each perform a full reset (tokens, current input, error flag
and just-evaluated cleared; last value 0) and stop, displaying "0", without
applying the operator or evaluating anything. -/
theorem error_state_resets (s : SessionState) (g : Str) (h : s.errorState = true) :
    applyOperator g s = clearAllState ∧
    calculateResult s = clearAllState ∧
    displayText (applyOperator g s) = ['0'] ∧
    displayText (calculateResult s) = ['0'] := by
  have h1 : applyOperator g s = clearAllState := by
    unfold applyOperator; simp [h]
  have h2 : calculateResult s = clearAllState := by
    unfold calculateResult; simp [h]
  exact ⟨h1, h2, by rw [h1]; decide, by rw [h2]; decide⟩

/-- Witness for C8 at a concrete error state. -/
theorem error_state_resets_witness :
    applyOperator "+".data (showError clearAllState) = clearAllState ∧
    calculateResult (showError clearAllState) = clearAllState ∧
    displayText (applyOperator "+".data (showError clearAllState)) = ['0'] ∧
    displayText (calculateResult (showError clearAllState)) = ['0'] :=
  error_state_resets (showError clearAllState) "+".data (by decide)

/-- C9 (counterexample): the rendering rule does NOT show "0" for the
candidate text "-0.": after toggling sign (giving "-0") and pressing the
decimal point, the candidate is "-0." and the display shows "0.",
because `_update_display` strips the minus with `replace("-", "")`. -/
theorem display_neg_zero_dot_counterexample :
    displayCandidate (runButtons ["±".data, ".".data]) = ['-', '0', '.'] ∧
    displayText (runButtons ["±".data, ".".data]) = ['0', '.'] ∧
    displayText (runButtons ["±".data, ".".data]) ≠ ['0'] := by
  refine ⟨by decide, by decide, by decide⟩

/-- C9 (amended): the rendering rule canonicalises a lone "-0" to "0" and a
lone "-0." to "0." (the minus is stripped, the trailing point kept); an
empty or lone "-" candidate displays "0"; and toggling sign on "0" renders
"0", not "-0". -/
theorem display_canonicalisation :
    (∀ s : SessionState, s.errorState = false →
      (displayCandidate s = ['-', '0'] → displayText s = ['0']) ∧
      (displayCandidate s = ['-', '0', '.'] → displayText s = ['0', '.']) ∧
      (displayCandidate s = [] → displayText s = ['0']) ∧
      (displayCandidate s = ['-'] → displayText s = ['0'])) ∧
    displayText (toggleSign clearAllState) = ['0'] := by
  refine ⟨?_, by decide⟩
  intro s hs
  refine ⟨?_, ?_, ?_, ?_⟩ <;> intro hc <;> simp [displayText, hs, hc]

/-- Witness for C9 (amended) at concrete states realising each candidate. -/
theorem display_canonicalisation_witness :
    displayText { clearAllState with currentInput := ['-', '0'] } = ['0'] :=
  (display_canonicalisation.1 { clearAllState with currentInput := ['-', '0'] }
    (by decide)).1 (by decide)

/-! ### C3: unary-minus disambiguation -/

theorem handleUnaryAux_length (ts : List Token) :
    ∀ prev, (handleUnaryAux prev ts).length = ts.length := by
  induction ts with
  | nil => intro prev; rfl
  | cons t ts ih => intro prev; simp [handleUnaryAux, ih]

theorem getLast?_cons_getLastD {α : Type} (a : α) (l : List α) :
    (a :: l).getLast? = some (l.getLastD a) := by
  induction l generalizing a with
  | nil => rfl
  | cons b l ih => rw [List.getLast?_cons_cons, ih, List.getLastD_cons]

/-- Rewriting a token (possibly to `u-`) does not change whether it counts
as a unary context: `-` and `u-` are both operator keys. -/
theorem unaryContext_rewrite (t : Token) (b : Bool) :
    unaryContext (some (if t == ['-'] && b then uminusTok else t)) =
      unaryContext (some t) := by
  by_cases h : (t == ['-'] && b) = true
  · have ht : t = ['-'] := eq_of_beq (Bool.and_eq_true _ _ |>.mp h).1
    subst ht
    rw [if_pos h]
    decide
  · rw [if_neg h]

theorem handleUnaryAux_getD (ts : List Token) :
    ∀ (prev : Option Token) (i : Nat),
    (handleUnaryAux prev ts).getD i [] =
      (if (ts.getD i [] == ['-']) && unaryContext (ctxAt prev ts i) then uminusTok
       else ts.getD i []) := by
  induction ts with
  | nil =>
    intro prev i
    simp [handleUnaryAux, List.getD]
  | cons t ts ih =>
    intro prev i
    cases i with
    | zero =>
      have hc : ctxAt prev (t :: ts) 0 = prev := by
        simp [ctxAt, lastNonPct]
      simp [handleUnaryAux, hc, List.getD]
    | succ i =>
      have hstep : (handleUnaryAux prev (t :: ts)).getD (i + 1) [] =
          (handleUnaryAux (if t == ['%'] then prev else
             some (if t == ['-'] && unaryContext prev then uminusTok else t)) ts).getD i [] := by
        simp [handleUnaryAux, List.getD]
      rw [hstep, ih]
      have hget : (t :: ts).getD (i + 1) [] = ts.getD i [] := by
        simp [List.getD]
      have hctx : unaryContext (ctxAt (if t == ['%'] then prev else
              some (if t == ['-'] && unaryContext prev then uminusTok else t)) ts i) =
          unaryContext (ctxAt prev (t :: ts) (i + 1)) := by
        by_cases hp : (t == ['%']) = true
        · rw [if_pos hp]
          unfold ctxAt lastNonPct
          rw [List.take_succ_cons, List.filter_cons, if_neg (by simp [hp])]
        · rw [if_neg hp]
          unfold ctxAt lastNonPct
          have hft : (!(t == ['%'])) = true := by simp [hp]
          rw [List.take_succ_cons, List.filter_cons, if_pos hft,
              getLast?_cons_getLastD]
          cases hlast : (List.filter (fun x => !(x == ['%'])) (ts.take i)).getLast? with
          | some p =>
            have hd : (List.filter (fun x => !(x == ['%'])) (ts.take i)).getLastD t = p := by
              rw [List.getLastD_eq_getLast?, hlast]; rfl
            rw [hd]
          | none =>
            have hnil : List.filter (fun x => !(x == ['%'])) (ts.take i) = [] :=
              List.getLast?_eq_none_iff.mp hlast
            rw [hnil]
            exact unaryContext_rewrite t (unaryContext prev)
      rw [hget, hctx]

/-- C3: during tokenisation a `-` token is rewritten to the distinct
unary-negation token `u-` exactly when the previous emitted token is
absent, a binary or unary operator key, or `(`; otherwise it stays binary;
and a `%` token does not update what counts as the previous token for this
test (positionwise characterisation of `_handle_unary_minus`). -/
theorem unary_minus_rewrite (ts : List Token) (i : Nat) :
    (handleUnaryMinus ts).length = ts.length ∧
    (handleUnaryMinus ts).getD i [] =
      (if (ts.getD i [] == ['-']) && unaryContext (lastNonPct (ts.take i)) then uminusTok
       else ts.getD i []) := by
  constructor
  · exact handleUnaryAux_length ts none
  · rw [handleUnaryMinus, handleUnaryAux_getD]
    have hc : ctxAt none ts i = lastNonPct (ts.take i) := by
      unfold ctxAt; cases lastNonPct (ts.take i) <;> rfl
    rw [hc]

/-! ### C4: the trailing-operator invariant of the token sequence -/

theorem getLastD_eq_getD (l : List Token) :
    ∀ d, l.getLastD d = l.getD (l.length - 1) d := by
  induction l with
  | nil => intro d; rfl
  | cons a l ih =>
    intro d
    rw [List.getLastD_cons, ih a]
    cases l with
    | nil => rfl
    | cons b m =>
      have hin : m.length < (b :: m).length := by simp
      simp [List.getD_eq_getElem?_getD, List.getElem?_eq_getElem hin, List.getD]

theorem isOpToken_nil : isOpToken [] = false := rfl

theorem ttops_nil : trailingTwoOps [] = false := rfl

theorem ttops_single (x : Token) : trailingTwoOps [x] = false := rfl

theorem ttops_concat (ts : List Token) (x : Token) :
    trailingTwoOps (ts ++ [x]) =
      (isOpToken x && isOpToken (ts.getD (ts.length - 1) [])) := by
  cases ts with
  | nil => simp [trailingTwoOps, isOpToken_nil]
  | cons a m =>
    have hlen : ((a :: m) ++ [x]).length = m.length + 2 := by simp
    have hble : Nat.ble 2 (m.length + 2) = true := by
      rw [Nat.ble_eq]; omega
    have hlast : ((a :: m) ++ [x]).getD (m.length + 1) [] = x := by
      have : ((a :: m) ++ [x])[(a :: m).length]? = some x := List.getElem?_concat_length _ _
      simp only [List.getD_eq_getElem?_getD]
      simp only [List.length_cons] at this
      rw [this]
      rfl
    have hsnd : ((a :: m) ++ [x]).getD (m.length + 2 - 2) [] =
        (a :: m).getD ((a :: m).length - 1) [] := by
      have hlt : m.length + 2 - 2 < (a :: m).length := by simp
      simp only [List.getD_eq_getElem?_getD, List.getElem?_append_left hlt]
      simp
    rw [trailingTwoOps, hlen, hble]
    have h1 : m.length + 2 - 1 = m.length + 1 := by omega
    rw [h1, hlast, hsnd, Bool.true_and]

theorem ttops_concat_nonop (ts : List Token) (x : Token) (h : isOpToken x = false) :
    trailingTwoOps (ts ++ [x]) = false := by
  rw [ttops_concat, h, Bool.false_and]

theorem ttops_concat_lastnonop (ts : List Token) (x : Token)
    (h : isOpToken (ts.getD (ts.length - 1) []) = false) :
    trailingTwoOps (ts ++ [x]) = false := by
  rw [ttops_concat, h, Bool.and_false]

theorem lastOp_dropLast (ts : List Token)
    (h1 : trailingTwoOps ts = false)
    (h2 : isOpToken (ts.getD (ts.length - 1) []) = true) :
    isOpToken (ts.dropLast.getD (ts.dropLast.length - 1) []) = false := by
  rcases Nat.lt_or_ge ts.length 2 with hn | hn
  · cases ts with
    | nil => exact isOpToken_nil
    | cons a m =>
      have : m = [] := by
        cases m with
        | nil => rfl
        | cons b k => exact absurd hn (by simp)
      subst this
      exact isOpToken_nil
  · have hble : Nat.ble 2 ts.length = true := by rw [Nat.ble_eq]; exact hn
    rw [trailingTwoOps, hble, Bool.true_and, h2, Bool.true_and] at h1
    have hlen : ts.dropLast.length = ts.length - 1 := List.length_dropLast ts
    have hidx : ts.length - 1 - 1 = ts.length - 2 := by omega
    have hlt : ts.length - 2 < ts.length - 1 := by omega
    have : ts.dropLast.getD (ts.length - 2) [] = ts.getD (ts.length - 2) [] := by
      simp only [List.getD_eq_getElem?_getD]
      rw [List.dropLast_eq_take, List.getElem?_take, if_pos (by omega)]
    rw [hlen, hidx, this]
    exact h1

theorem ttops_of_last_nonop (ts : List Token)
    (h : isOpToken (ts.getD (ts.length - 1) []) = false) :
    trailingTwoOps ts = false := by
  rw [trailingTwoOps, h, Bool.false_and, Bool.and_false]

theorem ttops_replace_last (ts : List Token) (x : Token)
    (h1 : trailingTwoOps ts = false)
    (h2 : isOpToken (ts.getLastD []) = true) :
    trailingTwoOps (ts.dropLast ++ [x]) = false := by
  rw [getLastD_eq_getD] at h2
  exact ttops_concat_lastnonop _ _ (lastOp_dropLast ts h1 h2)

theorem ttops_set_nonop (ts : List Token) (i : Nat) (x : Token)
    (hx : isOpToken x = false) (h : trailingTwoOps ts = false) :
    trailingTwoOps (ts.set i x) = false := by
  rcases Nat.lt_or_ge i ts.length with hi | hi
  · have hlen : (ts.set i x).length = ts.length := List.length_set ts i x
    rcases Nat.lt_or_ge ts.length 2 with hn | hn
    · cases ts with
      | nil => exact absurd hi (by simp)
      | cons a m =>
        have hm : m = [] := by
          cases m with
          | nil => rfl
          | cons b k => exact absurd hn (by simp)
        subst hm
        have hi0 : i = 0 := by
          simp only [List.length_cons, List.length_nil] at hi
          omega
        subst hi0
        exact ttops_single x
    · have hble : Nat.ble 2 ts.length = true := by rw [Nat.ble_eq]; exact hn
      unfold trailingTwoOps at h ⊢
      rw [hble, Bool.true_and] at h
      rw [hlen, hble, Bool.true_and]
      by_cases hi1 : i = ts.length - 1
      · have : (ts.set i x).getD (ts.length - 1) [] = x := by
          simp only [List.getD_eq_getElem?_getD]
          rw [← hi1, List.getElem?_set_eq (by omega)]
          rfl
        rw [this, hx, Bool.false_and]
      · have he1 : (ts.set i x).getD (ts.length - 1) [] = ts.getD (ts.length - 1) [] := by
          simp only [List.getD_eq_getElem?_getD]
          rw [List.getElem?_set_ne hi1]
        by_cases hi2 : i = ts.length - 2
        · have : (ts.set i x).getD (ts.length - 2) [] = x := by
            simp only [List.getD_eq_getElem?_getD]
            rw [← hi2, List.getElem?_set_eq (by omega)]
            rfl
          rw [he1, this, hx, Bool.and_false]
        · have he2 : (ts.set i x).getD (ts.length - 2) [] = ts.getD (ts.length - 2) [] := by
            simp only [List.getD_eq_getElem?_getD]
            rw [List.getElem?_set_ne hi2]
          rw [he1, he2]
          exact h
  · rw [List.set_eq_of_length_le hi]
    exact h

/-- Every character produced by `natDigitsAux` is a decimal digit. -/
theorem natDigitsAux_chars :
    ∀ (fuel n : Nat) (c : Char), c ∈ natDigitsAux fuel n → c.isDigit = true := by
  intro fuel
  induction fuel with
  | zero => intro n c hc; simp [natDigitsAux] at hc
  | succ fuel ih =>
    intro n c hc
    rw [natDigitsAux] at hc
    by_cases hn : n = 0
    · rw [if_pos hn] at hc; simp at hc
    · rw [if_neg hn] at hc
      rcases List.mem_append.mp hc with h1 | h2
      · exact ih _ c h1
      · have hr : n % 10 < 10 := Nat.mod_lt n (by omega)
        have hcc : c = Char.ofNat (48 + n % 10) := by simpa using h2
        subst hcc
        interval_cases h : (n % 10) <;> decide

theorem natDigits_chars (n : Nat) (c : Char) (hc : c ∈ natDigits n) :
    c.isDigit = true := by
  unfold natDigits at hc
  by_cases hn : n = 0
  · rw [if_pos hn] at hc
    simp at hc
    subst hc
    decide
  · rw [if_neg hn] at hc
    exact natDigitsAux_chars _ _ c hc

/-- Every character of the fixed-point body for coefficient digits `ds` and
exponent `e` is a digit, `-` or `.`. -/
theorem formatF_body_chars (ds : Str) (e : Int)
    (hds : ∀ x ∈ ds, Char.isDigit x = true) (c : Char)
    (hc : c ∈ (if 0 ≤ e then ds ++ List.replicate e.toNat '0'
        else if ds.length ≤ (-e).toNat then
          '0' :: '.' :: (List.replicate ((-e).toNat - ds.length) '0' ++ ds)
        else ds.take (ds.length - (-e).toNat) ++ '.' :: ds.drop (ds.length - (-e).toNat))) :
    (c.isDigit || c == '-' || c == '.') = true := by
  split at hc
  · rcases List.mem_append.mp hc with h1 | h2
    · simp [hds c h1]
    · rw [List.eq_of_mem_replicate h2]; decide
  · split at hc
    · rcases List.mem_cons.mp hc with h0 | hc1
      · subst h0; decide
      · rcases List.mem_cons.mp hc1 with h0 | hc2
        · subst h0; decide
        · rcases List.mem_append.mp hc2 with h1 | h2
          · rw [List.eq_of_mem_replicate h1]; decide
          · simp [hds c h2]
    · rcases List.mem_append.mp hc with h1 | h2
      · simp [hds c (List.mem_of_mem_take h1)]
      · rcases List.mem_cons.mp h2 with h0 | hc2
        · subst h0; decide
        · simp [hds c (List.mem_of_mem_drop hc2)]

/-- Every character of a fixed-point rendering is a digit, `-` or `.`. -/
theorem formatF_chars (v : Dec) (c : Char) (hc : c ∈ formatF v) :
    (c.isDigit || c == '-' || c == '.') = true := by
  have hds : ∀ x ∈ natDigits v.coeff, Char.isDigit x = true :=
    fun x hx => natDigits_chars _ x hx
  unfold formatF at hc
  dsimp only at hc
  split at hc
  · rcases List.mem_cons.mp hc with h0 | h1
    · subst h0; decide
    · exact formatF_body_chars _ _ hds c h1
  · exact formatF_body_chars _ _ hds c hc

theorem rstrip_mem (ch : Char) (s : Str) (c : Char) (hc : c ∈ rstrip ch s) : c ∈ s := by
  unfold rstrip at hc
  have h1 := List.mem_reverse.mp hc
  have h2 := (List.dropWhile_sublist _).subset h1
  exact List.mem_reverse.mp h2

/-- Every character of `_decimal_to_string` output is a digit, `-` or `.`. -/
theorem decimalToString_chars (v : Dec) (c : Char) (hc : c ∈ decimalToString v) :
    (c.isDigit || c == '-' || c == '.') = true := by
  unfold decimalToString at hc
  dsimp only at hc
  split at hc
  · split at hc
    · simp at hc; subst hc; decide
    · split at hc
      · simp at hc; subst hc; decide
      · exact formatF_chars _ c (rstrip_mem _ _ _ (rstrip_mem _ _ _ hc))
  · split at hc
    · simp at hc; subst hc; decide
    · split at hc
      · simp at hc; subst hc; decide
      · exact formatF_chars _ c hc

/-- The canonical string of a Decimal is never the lone minus sign. -/
theorem dts_ne_neg (v : Dec) : decimalToString v ≠ ['-'] := by
  unfold decimalToString
  dsimp only
  split <;>
    · split
      · decide
      · split
        · decide
        · next h2 =>
          intro heq
          exact absurd (by rw [heq]; rfl) h2

/-- The canonical string of a Decimal is never one of the four binary
operator tokens. -/
theorem dts_not_op (v : Dec) : isOpToken (decimalToString v) = false := by
  have hchars := decimalToString_chars v
  rw [isOpToken]
  rcases hb : opValues.contains (decimalToString v) with _ | _
  · rfl
  · exfalso
    have hmem : decimalToString v ∈ opValues := List.elem_iff.mp hb
    simp only [opValues, List.mem_cons, List.not_mem_nil, or_false] at hmem
    rcases hmem with h | h | h | h
    · have := hchars '+' (by rw [h]; exact List.mem_singleton_self _)
      simp at this
    · exact dts_ne_neg v h
    · have := hchars '*' (by rw [h]; exact List.mem_singleton_self _)
      simp at this
    · have := hchars '/' (by rw [h]; exact List.mem_singleton_self _)
      simp at this

theorem pushCurrent_inv (s : SessionState)
    (h : trailingTwoOps s.tokens = false) :
    trailingTwoOps ((pushCurrentToTokens s).1).tokens = false := by
  unfold pushCurrentToTokens
  dsimp only
  split
  · exact h
  · split
    · exact ttops_nil
    · exact ttops_concat_nonop _ _ (dts_not_op _)

theorem appendDigit_inv (d : Str) (s : SessionState)
    (h : trailingTwoOps s.tokens = false) :
    trailingTwoOps (appendDigit d s).tokens = false := by
  unfold appendDigit
  dsimp only
  repeat' split
  all_goals first | exact h | exact ttops_nil

theorem appendDecimal_inv (s : SessionState)
    (h : trailingTwoOps s.tokens = false) :
    trailingTwoOps (appendDecimal s).tokens = false := by
  unfold appendDecimal
  dsimp only
  repeat' split
  all_goals first | exact h | exact ttops_nil

theorem clearEntry_inv (s : SessionState)
    (h : trailingTwoOps s.tokens = false) :
    trailingTwoOps (clearEntry s).tokens = false := by
  unfold clearEntry
  repeat' split
  all_goals first | exact h | exact ttops_nil

theorem backspace_inv (s : SessionState)
    (h : trailingTwoOps s.tokens = false) :
    trailingTwoOps (backspace s).tokens = false := by
  unfold backspace
  dsimp only
  repeat' split
  all_goals first | exact h | exact ttops_nil

theorem toggleSign_inv (s : SessionState)
    (h : trailingTwoOps s.tokens = false) :
    trailingTwoOps (toggleSign s).tokens = false := by
  unfold toggleSign
  dsimp only
  repeat' split
  all_goals first | exact h | exact ttops_nil

theorem applyPercent_inv (s : SessionState)
    (h : trailingTwoOps s.tokens = false) :
    trailingTwoOps (applyPercent s).tokens = false := by
  unfold applyPercent
  repeat' split
  all_goals
    first
    | exact h
    | exact ttops_nil
    | exact ttops_set_nonop _ _ _ (dts_not_op _) h

theorem applyOperator_inv (g : Str) (s : SessionState)
    (h : trailingTwoOps s.tokens = false) :
    trailingTwoOps (applyOperator g s).tokens = false := by
  unfold applyOperator
  dsimp only
  split
  · exact ttops_nil
  · set s1 := (if s.justEvaluated = true then
        { s with tokens := ([] : List Token), justEvaluated := false } else s) with hs1
    have h1 : trailingTwoOps s1.tokens = false := by
      rw [hs1]; split
      · exact ttops_nil
      · exact h
    set s2 := (if !s1.currentInput.isEmpty then (pushCurrentToTokens s1).1 else s1) with hs2
    have h2 : trailingTwoOps s2.tokens = false := by
      rw [hs2]; split
      · exact pushCurrent_inv s1 h1
      · exact h1
    set s3 := (if s2.tokens.isEmpty then
        { s2 with tokens := s2.tokens ++ [decimalToString s2.lastValue] } else s2) with hs3
    have h3 : trailingTwoOps s3.tokens = false := by
      rw [hs3]; split
      · exact ttops_concat_nonop _ _ (dts_not_op _)
      · exact h2
    rcases hcond : (!s3.tokens.isEmpty && opValues.contains (s3.tokens.getLastD [])) with _ | _
    · rw [if_neg Bool.false_ne_true]
      show trailingTwoOps (s3.tokens ++ [operatorMap g]) = false
      rcases Bool.and_eq_false_iff.mp hcond with hemp | hcont
      · have hE : s3.tokens.isEmpty = true := by
          revert hemp; cases s3.tokens.isEmpty <;> simp
        rw [List.isEmpty_iff.mp hE]
        exact ttops_single _
      · apply ttops_concat_lastnonop
        rw [← getLastD_eq_getD]
        exact hcont
    · rw [if_pos rfl]
      have hlast : isOpToken (s3.tokens.getLastD []) = true :=
        (Bool.and_eq_true _ _ |>.mp hcond).2
      exact ttops_replace_last _ _ h3 hlast

theorem calculateResult_inv (s : SessionState)
    (h : trailingTwoOps s.tokens = false) :
    trailingTwoOps (calculateResult s).tokens = false := by
  unfold calculateResult
  dsimp only
  split
  · exact ttops_nil
  · set s1 := (if !s.currentInput.isEmpty then (pushCurrentToTokens s).1
      else if !s.tokens.isEmpty && opValues.contains (s.tokens.getLastD []) then
        { s with tokens := s.tokens.dropLast }
      else s) with hs1
    have h1 : trailingTwoOps s1.tokens = false := by
      rw [hs1]
      split
      · exact pushCurrent_inv s h
      · split
        · next hcnd =>
          have hlast : isOpToken (s.tokens.getLastD []) = true :=
            (Bool.and_eq_true _ _ |>.mp hcnd).2
          rw [getLastD_eq_getD] at hlast
          show trailingTwoOps s.tokens.dropLast = false
          exact ttops_of_last_nonop _ (lastOp_dropLast _ h hlast)
        · exact h
    split
    · exact h1
    · split
      · exact ttops_nil
      · exact ttops_nil

theorem handleButton_inv (label : Str) (s : SessionState)
    (h : trailingTwoOps s.tokens = false) :
    trailingTwoOps (handleButton label s).tokens = false := by
  unfold handleButton
  split
  · exact appendDigit_inv _ _ h
  · split
    · exact appendDecimal_inv _ h
    · split
      · exact applyOperator_inv _ _ h
      · split
        · exact calculateResult_inv _ h
        · split
          · exact ttops_nil
          · split
            · exact clearEntry_inv _ h
            · split
              · exact backspace_inv _ h
              · split
                · exact toggleSign_inv _ h
                · split
                  · exact applyPercent_inv _ h
                  · exact h

theorem foldl_buttons_inv (labels : List Str) :
    ∀ s : SessionState, trailingTwoOps s.tokens = false →
      trailingTwoOps ((labels.foldl (fun s l => handleButton l s) s)).tokens = false := by
  induction labels with
  | nil => intro s h; exact h
  | cons l labels ih =>
    intro s h
    exact ih _ (handleButton_inv l s h)

/-- C4: over every sequence of input events the committed token sequence
never ends in two consecutive binary operators, and when an operator event
arrives in a clean state whose last committed token is already an operator,
that trailing operator is replaced in place rather than appended. -/
theorem trailing_operator_invariant :
    (∀ labels : List Str, trailingTwoOps (runButtons labels).tokens = false) ∧
    (∀ (s : SessionState) (g : Str),
      s.errorState = false → s.justEvaluated = false → s.currentInput = [] →
      opValues.contains (s.tokens.getLastD []) = true →
      (applyOperator g s).tokens = s.tokens.dropLast ++ [operatorMap g]) := by
  constructor
  · intro labels
    exact foldl_buttons_inv labels clearAllState rfl
  · intro s g herr hje hci hlast
    have hE : s.tokens.isEmpty = false := by
      cases hT : s.tokens.isEmpty
      · rfl
      · exfalso
        rw [List.isEmpty_iff.mp hT] at hlast
        exact absurd hlast (by decide)
    have hmem : s.tokens.getLast?.getD [] ∈ opValues := by
      have hm := List.elem_iff.mp hlast
      rwa [List.getLastD_eq_getLast?] at hm
    unfold applyOperator
    simp [herr, hje, hci, hE, hlast, hmem]

/-- Witness for C4: with committed tokens `5`, `+` and a pending `×` event,
the trailing `+` is replaced by `*`. -/
theorem trailing_operator_invariant_witness :
    (applyOperator ['×'] { clearAllState with tokens := [['5'], ['+']] }).tokens
      = [['5'], ['*']] := by
  have h := trailing_operator_invariant.2
    { clearAllState with tokens := [['5'], ['+']] } ['×'] rfl rfl rfl (by decide)
  rw [h]
  decide

/-! ### Decimal digit-count, rounding and normalisation lemmas -/

theorem numDigitsAux_bounds :
    ∀ (fuel n : Nat), n < fuel → 0 < n →
      10 ^ (numDigitsAux fuel n - 1) ≤ n ∧ n < 10 ^ numDigitsAux fuel n := by
  intro fuel
  induction fuel with
  | zero => intro n h1 h2; omega
  | succ fuel ih =>
    intro n h1 h2
    rw [numDigitsAux]
    by_cases hn : n < 10
    · rw [if_pos hn]
      constructor
      · simpa using h2
      · simpa using hn
    · rw [if_neg hn]
      have hd : n / 10 < fuel := by
        have h3 : n / 10 < n := Nat.div_lt_self h2 (by norm_num)
        omega
      have hd0 : 0 < n / 10 := Nat.div_pos (by omega) (by norm_num)
      obtain ⟨hl, hr⟩ := ih (n / 10) hd hd0
      constructor
      · have h5 : numDigitsAux fuel (n / 10) + 1 - 1 = (numDigitsAux fuel (n / 10) - 1) + 1 := by
          have : 1 ≤ numDigitsAux fuel (n / 10) := by
            by_contra hcon
            have : numDigitsAux fuel (n / 10) = 0 := by omega
            rw [this] at hr
            omega
          omega
        rw [h5, pow_succ]
        calc 10 ^ (numDigitsAux fuel (n / 10) - 1) * 10 ≤ (n / 10) * 10 :=
              Nat.mul_le_mul_right 10 hl
          _ ≤ n := by omega
      · rw [pow_succ]
        calc n < (n / 10 + 1) * 10 := by omega
          _ ≤ 10 ^ numDigitsAux fuel (n / 10) * 10 := Nat.mul_le_mul_right 10 (by omega)

theorem numDigits_bounds (n : Nat) (h : 0 < n) :
    10 ^ (numDigits n - 1) ≤ n ∧ n < 10 ^ numDigits n := by
  unfold numDigits
  exact numDigitsAux_bounds (n + 1) n (by omega) h

theorem numDigits_pos (n : Nat) (h : 0 < n) : 0 < numDigits n := by
  by_contra hcon
  have h0 : numDigits n = 0 := by omega
  have := (numDigits_bounds n h).2
  rw [h0] at this
  simp at this
  omega

/-- The digit count is the unique `d` with `10^(d-1) ≤ n < 10^d`. -/
theorem numDigits_unique (n d : Nat) (h : 0 < n) (hd : 0 < d)
    (hl : 10 ^ (d - 1) ≤ n) (hr : n < 10 ^ d) : numDigits n = d := by
  obtain ⟨hl2, hr2⟩ := numDigits_bounds n h
  have hp := numDigits_pos n h
  by_contra hne
  rcases Nat.lt_or_ge (numDigits n) d with hc | hc
  · have : 10 ^ numDigits n ≤ 10 ^ (d - 1) :=
      Nat.pow_le_pow_right (by norm_num) (by omega)
    omega
  · have hgt : d < numDigits n := by omega
    have : 10 ^ d ≤ 10 ^ (numDigits n - 1) :=
      Nat.pow_le_pow_right (by norm_num) (by omega)
    omega

theorem numDigits_mul_pow (c j : Nat) (hc : 0 < c) :
    numDigits (c * 10 ^ j) = numDigits c + j := by
  obtain ⟨hl, hr⟩ := numDigits_bounds c hc
  have hp := numDigits_pos c hc
  apply numDigits_unique
  · positivity
  · omega
  · have h1 : numDigits c + j - 1 = (numDigits c - 1) + j := by omega
    rw [h1, pow_add]
    exact Nat.mul_le_mul_right _ hl
  · rw [pow_add]
    exact (Nat.mul_lt_mul_right (by positivity)).mpr hr

theorem numDigits_le_iff (c p : Nat) (hc : 0 < c) :
    numDigits c ≤ p ↔ c < 10 ^ p := by
  obtain ⟨hl, hr⟩ := numDigits_bounds c hc
  constructor
  · intro h
    exact lt_of_lt_of_le hr (Nat.pow_le_pow_right (by norm_num) h)
  · intro h
    by_contra hcon
    have : 10 ^ p ≤ 10 ^ (numDigits c - 1) :=
      Nat.pow_le_pow_right (by norm_num) (by omega)
    omega

/-- Half-even rounding of an exact division is the exact quotient. -/
theorem roundHalfEvenDiv_exact (n d : Nat) (hd : 0 < d) (hdvd : d ∣ n) :
    roundHalfEvenDiv n d = n / d := by
  unfold roundHalfEvenDiv
  have hr : n % d = 0 := Nat.dvd_iff_mod_eq_zero.mp hdvd
  rw [hr]
  dsimp only
  rw [if_neg (by omega), if_pos (by omega)]

theorem roundHalfEvenDiv_ge (n d : Nat) : n / d ≤ roundHalfEvenDiv n d := by
  unfold roundHalfEvenDiv
  dsimp only
  split
  · omega
  · split
    · omega
    · split <;> omega

theorem roundHalfEvenDiv_le (n d : Nat) : roundHalfEvenDiv n d ≤ n / d + 1 := by
  unfold roundHalfEvenDiv
  dsimp only
  split
  · omega
  · split
    · omega
    · split <;> omega

theorem decRound_small (neg : Bool) (c : Nat) (e : Int) (h : c < 10 ^ PREC) :
    decRound neg c e = ⟨neg, c, e⟩ := by
  unfold decRound; rw [if_pos h]

theorem decRound_neg_eq (neg : Bool) (c : Nat) (e : Int) :
    (decRound neg c e).neg = neg := by
  unfold decRound
  split
  · rfl
  · dsimp only
    split <;> rfl

/-- The coefficient of a rounded result is below the precision bound. -/
theorem decRound_lt (neg : Bool) (c : Nat) (e : Int) :
    (decRound neg c e).coeff < 10 ^ PREC := by
  unfold decRound
  split
  · assumption
  · next hbig =>
    have hge : 10 ^ PREC ≤ c := by omega
    have hc0 : 0 < c := lt_of_lt_of_le (by positivity) hge
    have hgtd : PREC < numDigits c := by
      by_contra hcon
      have := (numDigits_le_iff c PREC hc0).mp (by omega)
      omega
    have hup : c < 10 ^ (PREC + (numDigits c - PREC)) := by
      have h2 := (numDigits_bounds c hc0).2
      have : PREC + (numDigits c - PREC) = numDigits c := by omega
      rw [this]
      exact h2
    have hqlt : c / 10 ^ (numDigits c - PREC) < 10 ^ PREC := by
      rw [Nat.div_lt_iff_lt_mul (by positivity), ← pow_add]
      exact hup
    have hle : roundHalfEvenDiv c (10 ^ (numDigits c - PREC)) ≤ 10 ^ PREC := by
      have := roundHalfEvenDiv_le c (10 ^ (numDigits c - PREC))
      omega
    dsimp only
    split
    · assumption
    · next hc2 =>
      have heq : roundHalfEvenDiv c (10 ^ (numDigits c - PREC)) = 10 ^ PREC := by omega
      dsimp only
      rw [heq]
      have : (10 : Nat) ^ PREC / 10 < 10 ^ PREC := Nat.div_lt_self (by positivity) (by norm_num)
      exact this

/-- Rounding keeps a positive coefficient positive. -/
theorem decRound_pos (neg : Bool) (c : Nat) (e : Int) (hc0 : 0 < c) :
    0 < (decRound neg c e).coeff := by
  unfold decRound
  split
  · exact hc0
  · next hbig =>
    have hge : 10 ^ PREC ≤ c := by omega
    have hgtd : PREC < numDigits c := by
      by_contra hcon
      have := (numDigits_le_iff c PREC hc0).mp (by omega)
      omega
    have hlow : 10 ^ (PREC - 1) ≤ c / 10 ^ (numDigits c - PREC) := by
      rw [Nat.le_div_iff_mul_le (by positivity), ← pow_add]
      have h1 := (numDigits_bounds c hc0).1
      have hP : 0 < PREC := by norm_num [PREC]
      have : PREC - 1 + (numDigits c - PREC) = numDigits c - 1 := by omega
      rw [this]
      exact h1
    have hq := roundHalfEvenDiv_ge c (10 ^ (numDigits c - PREC))
    have hqpos : 0 < roundHalfEvenDiv c (10 ^ (numDigits c - PREC)) := by
      have : (0:Nat) < 10 ^ (PREC - 1) := by positivity
      omega
    dsimp only
    split
    · exact hqpos
    · next hc2 =>
      have hle := roundHalfEvenDiv_le c (10 ^ (numDigits c - PREC))
      dsimp only
      have h10 : (10:Nat) ^ PREC ≤ roundHalfEvenDiv c (10 ^ (numDigits c - PREC)) := by omega
      have : 10 ^ PREC / 10 ≤ roundHalfEvenDiv c (10 ^ (numDigits c - PREC)) / 10 :=
        Nat.div_le_div_right h10
      have hpow : (10:Nat) ^ PREC / 10 = 10 ^ (PREC - 1) := by
        have h28 : (10:Nat) ^ PREC = 10 ^ (PREC - 1) * 10 := by norm_num [PREC]
        rw [h28, Nat.mul_div_cancel _ (by norm_num)]
      have : (0:Nat) < 10 ^ (PREC - 1) := by positivity
      omega

/-- Rounding a coefficient of the form `c * 10^j` with `c` below the
precision bound is exact: only trailing zeros are dropped. -/
theorem decRound_pow_mul (neg : Bool) (c j : Nat) (e : Int)
    (hc0 : 0 < c) (hc : c < 10 ^ PREC) :
    ∃ m, m ≤ j ∧
      decRound neg (c * 10 ^ j) e = ⟨neg, c * 10 ^ (j - m), e + (m : Int)⟩ ∧
      c * 10 ^ (j - m) < 10 ^ PREC := by
  by_cases hbig : c * 10 ^ j < 10 ^ PREC
  · refine ⟨0, Nat.zero_le j, ?_, by simpa using hbig⟩
    rw [decRound_small _ _ _ hbig]
    simp
  · have hge : 10 ^ PREC ≤ c * 10 ^ j := by omega
    have hx0 : 0 < c * 10 ^ j := by positivity
    have hnd : numDigits (c * 10 ^ j) = numDigits c + j := numDigits_mul_pow c j hc0
    have hgtd : PREC < numDigits (c * 10 ^ j) := by
      by_contra hcon
      have := (numDigits_le_iff _ PREC hx0).mp (by omega)
      omega
    have hcle : numDigits c ≤ PREC := (numDigits_le_iff c PREC hc0).mpr hc
    have hkj : numDigits (c * 10 ^ j) - PREC ≤ j := by omega
    have hdvd : (10 : Nat) ^ (numDigits (c * 10 ^ j) - PREC) ∣ c * 10 ^ j :=
      Dvd.dvd.mul_left (pow_dvd_pow 10 hkj) c
    have hq : c * 10 ^ j / 10 ^ (numDigits (c * 10 ^ j) - PREC)
        = c * 10 ^ (j - (numDigits (c * 10 ^ j) - PREC)) := by
      rw [Nat.mul_div_assoc c (pow_dvd_pow 10 hkj), Nat.pow_div hkj (by norm_num)]
    have hc2 : c * 10 ^ (j - (numDigits (c * 10 ^ j) - PREC)) < 10 ^ PREC := by
      refine (numDigits_le_iff _ PREC (by positivity)).mp ?_
      rw [numDigits_mul_pow _ _ hc0]
      omega
    refine ⟨numDigits (c * 10 ^ j) - PREC, hkj, ?_, hc2⟩
    unfold decRound
    rw [if_neg (by omega)]
    dsimp only
    rw [roundHalfEvenDiv_exact _ _ (by positivity) hdvd, hq, if_pos hc2]

theorem stripZerosAux_pow :
    ∀ (j fuel c : Nat) (e : Int), j ≤ fuel → c % 10 ≠ 0 →
      stripZerosAux fuel (c * 10 ^ j) e = (c, e + (j : Int)) := by
  intro j
  induction j with
  | zero =>
    intro fuel c e hj hc
    cases fuel with
    | zero => simp [stripZerosAux]
    | succ f => simp [stripZerosAux, hc]
  | succ j ih =>
    intro fuel c e hj hc
    obtain ⟨f, rfl⟩ : ∃ f, fuel = f + 1 := ⟨fuel - 1, by omega⟩
    have hdvd : (10:Nat) ∣ c * 10 ^ (j + 1) :=
      Dvd.dvd.mul_left (dvd_pow_self 10 (by omega)) c
    have hmod : c * 10 ^ (j + 1) % 10 = 0 := Nat.dvd_iff_mod_eq_zero.mp hdvd
    have hdiv : c * 10 ^ (j + 1) / 10 = c * 10 ^ j := by
      rw [pow_succ, ← mul_assoc]
      exact Nat.mul_div_cancel _ (by norm_num)
    rw [stripZerosAux, if_pos hmod, hdiv, ih f c (e + 1) (by omega) hc]
    have hcast : ((j : Nat) + 1 : Int) = ((j + 1 : Nat) : Int) := by push_cast; ring
    rw [Prod.mk.injEq]
    constructor
    · rfl
    · push_cast
      ring

/-- Every positive natural splits as `c0 * 10^t` with `c0` not divisible
by 10. -/
theorem exists_strip (c : Nat) (hc : 0 < c) :
    ∃ c0 t, c = c0 * 10 ^ t ∧ c0 % 10 ≠ 0 ∧ 0 < c0 := by
  induction c using Nat.strong_induction_on with
  | _ c ih =>
    by_cases hm : c % 10 = 0
    · have hdvd : (10:Nat) ∣ c := Nat.dvd_of_mod_eq_zero hm
      have hlt : c / 10 < c := Nat.div_lt_self hc (by norm_num)
      have hpos : 0 < c / 10 := Nat.div_pos (Nat.le_of_dvd hc hdvd) (by norm_num)
      obtain ⟨c0, t, heq, hcm, hc0⟩ := ih (c / 10) hlt hpos
      refine ⟨c0, t + 1, ?_, hcm, hc0⟩
      rw [pow_succ, ← mul_assoc]
      calc c = c / 10 * 10 := by omega
        _ = c0 * 10 ^ t * 10 := by rw [heq]
    · exact ⟨c, 0, by simp, hm, hc⟩

theorem normalizePy_zero (neg : Bool) (e : Int) :
    normalizePy ⟨neg, 0, e⟩ = ⟨neg, 0, 0⟩ := by
  unfold normalizePy
  rw [decRound_small _ _ _ (by positivity)]
  dsimp only
  rw [if_pos rfl]

/-- `normalize` of `c * 10^j` with `c` reduced and below the precision is
exactly `c` with the exponent raised by `j`. -/
theorem normalizePy_pow_mul (neg : Bool) (c j : Nat) (e : Int)
    (hc0 : 0 < c) (hcm : c % 10 ≠ 0) (hc : c < 10 ^ PREC) :
    normalizePy ⟨neg, c * 10 ^ j, e⟩ = ⟨neg, c, e + (j : Int)⟩ := by
  obtain ⟨m, hm, hround, hlt⟩ := decRound_pow_mul neg c j e hc0 hc
  unfold normalizePy
  dsimp only
  rw [hround]
  dsimp only
  rw [if_neg (by positivity)]
  have hfuel : j - m ≤ numDigits (c * 10 ^ (j - m)) := by
    rw [numDigits_mul_pow c _ hc0]
    have := numDigits_pos c hc0
    omega
  rw [stripZerosAux_pow (j - m) _ c (e + (m : Int)) hfuel hcm]
  dsimp only
  rw [Dec.mk.injEq]
  refine ⟨rfl, rfl, ?_⟩
  have : ((j - m : Nat) : Int) = (j : Int) - (m : Int) := by omega
  rw [this]
  ring

/-- The shape of a normalised Decimal: sign preserved, and either a true
zero with exponent 0, or a positive reduced coefficient below the
precision bound. -/
theorem normalizePy_cases (v : Dec) :
    (normalizePy v).neg = v.neg ∧
    ((normalizePy v).coeff = 0 ∧ (normalizePy v).exp = 0 ∨
      (0 < (normalizePy v).coeff ∧ (normalizePy v).coeff % 10 ≠ 0 ∧
        (normalizePy v).coeff < 10 ^ PREC)) := by
  unfold normalizePy
  dsimp only
  split
  · next hz => exact ⟨decRound_neg_eq _ _ _, Or.inl ⟨rfl, rfl⟩⟩
  · next hz =>
    have hpos : 0 < (decRound v.neg v.coeff v.exp).coeff := by omega
    obtain ⟨c0, t, heq, hcm, hc0⟩ := exists_strip _ hpos
    have hfuel : t ≤ numDigits (decRound v.neg v.coeff v.exp).coeff := by
      rw [heq, numDigits_mul_pow c0 t hc0]
      have := numDigits_pos c0 hc0
      omega
    have hstrip := stripZerosAux_pow t (numDigits (decRound v.neg v.coeff v.exp).coeff)
      c0 (decRound v.neg v.coeff v.exp).exp hfuel hcm
    rw [heq] at hstrip
    rw [heq, hstrip]
    refine ⟨decRound_neg_eq _ _ _, Or.inr ⟨hc0, hcm, ?_⟩⟩
    have hlt := decRound_lt v.neg v.coeff v.exp
    rw [heq] at hlt
    calc c0 ≤ c0 * 10 ^ t := Nat.le_mul_of_pos_right c0 (by positivity)
      _ < 10 ^ PREC := hlt

/-! ### Digit rendering and parse-back lemmas -/

theorem charVal_ofNat (r : Nat) (hr : r < 10) : charVal (Char.ofNat (48 + r)) = r := by
  interval_cases r <;> decide

theorem digit_char_ne_zero (r : Nat) (hr : r < 10) (hr0 : r ≠ 0) :
    (Char.ofNat (48 + r) == '0') = false := by
  interval_cases r
  · exact absurd rfl hr0
  all_goals decide

theorem digit_char_ne_dot (r : Nat) (hr : r < 10) :
    (Char.ofNat (48 + r) == '.') = false := by
  interval_cases r <;> decide

theorem digitsToNat_from (b : Str) :
    ∀ init : Nat, b.foldl (fun acc c => acc * 10 + charVal c) init
      = init * 10 ^ b.length + digitsToNat b := by
  induction b with
  | nil => intro init; simp [digitsToNat]
  | cons c b ih =>
    intro init
    have h1 : digitsToNat (c :: b) = charVal c * 10 ^ b.length + digitsToNat b := by
      have hrfl : digitsToNat (c :: b)
          = List.foldl (fun acc x => acc * 10 + charVal x) (0 * 10 + charVal c) b := rfl
      rw [hrfl, ih (0 * 10 + charVal c)]
      ring
    rw [List.foldl_cons, ih (init * 10 + charVal c), h1, List.length_cons]
    ring

theorem digitsToNat_append (a b : Str) :
    digitsToNat (a ++ b) = digitsToNat a * 10 ^ b.length + digitsToNat b := by
  unfold digitsToNat
  rw [List.foldl_append]
  exact digitsToNat_from b _

theorem natDigitsAux_toNat :
    ∀ (fuel n : Nat), n < 10 ^ fuel → digitsToNat (natDigitsAux fuel n) = n := by
  intro fuel
  induction fuel with
  | zero =>
    intro n h
    simp at h
    subst h
    rfl
  | succ fuel ih =>
    intro n h
    rw [natDigitsAux]
    by_cases hn : n = 0
    · rw [if_pos hn]; rw [hn]; rfl
    · rw [if_neg hn]
      rw [digitsToNat_append]
      have hdiv : n / 10 < 10 ^ fuel := by
        rw [Nat.div_lt_iff_lt_mul (by norm_num)]
        rw [pow_succ] at h
        exact h
      rw [ih (n / 10) hdiv]
      have hr : n % 10 < 10 := Nat.mod_lt n (by norm_num)
      have : digitsToNat [Char.ofNat (48 + n % 10)] = n % 10 := by
        unfold digitsToNat
        rw [List.foldl_cons, List.foldl_nil, charVal_ofNat _ hr]
        omega
      rw [this]
      simp
      omega

theorem digitsToNat_natDigits (n : Nat) : digitsToNat (natDigits n) = n := by
  unfold natDigits
  by_cases hn : n = 0
  · rw [if_pos hn, hn]; rfl
  · rw [if_neg hn]
    refine natDigitsAux_toNat (n + 1) n ?_
    calc n < 10 ^ n := Nat.lt_pow_self (by norm_num) n
      _ ≤ 10 ^ (n + 1) := Nat.pow_le_pow_right (by norm_num) (by omega)

theorem natDigitsAux_ne_nil (fuel n : Nat) (hf : 0 < fuel) (hn : n ≠ 0) :
    natDigitsAux fuel n ≠ [] := by
  obtain ⟨f, rfl⟩ : ∃ f, fuel = f + 1 := ⟨fuel - 1, by omega⟩
  rw [natDigitsAux, if_neg hn]
  simp

theorem natDigits_ne_nil (n : Nat) : natDigits n ≠ [] := by
  unfold natDigits
  by_cases hn : n = 0
  · rw [if_pos hn]; simp
  · rw [if_neg hn]
    exact natDigitsAux_ne_nil _ n (by omega) hn

theorem natDigits_getLast (n : Nat) (hn : n ≠ 0) :
    (natDigits n).getLast? = some (Char.ofNat (48 + n % 10)) := by
  unfold natDigits
  rw [if_neg hn]
  rw [natDigitsAux, if_neg hn]
  exact List.getLast?_concat _

theorem digitsToNat_cons (c : Char) (b : Str) :
    digitsToNat (c :: b) = charVal c * 10 ^ b.length + digitsToNat b := by
  have hrfl : digitsToNat (c :: b)
      = List.foldl (fun acc x => acc * 10 + charVal x) (0 * 10 + charVal c) b := rfl
  rw [hrfl, digitsToNat_from b (0 * 10 + charVal c)]
  ring

theorem digitsToNat_replicate_zero (n : Nat) :
    digitsToNat (List.replicate n '0') = 0 := by
  induction n with
  | zero => rfl
  | succ n ih =>
    rw [List.replicate_succ, digitsToNat_cons, ih]
    have h0 : charVal '0' = 0 := by decide
    rw [h0]
    ring

theorem rstrip_noop (ch : Char) (s : Str) (x : Char)
    (h1 : s.getLast? = some x) (h2 : (x == ch) = false) : rstrip ch s = s := by
  unfold rstrip
  rw [List.getLast?_eq_head?_reverse] at h1
  cases hs : s.reverse with
  | nil => rw [hs] at h1; simp at h1
  | cons y rest =>
    rw [hs] at h1
    simp at h1
    rw [List.dropWhile_cons]
    rw [if_neg (by rw [h1, h2]; exact Bool.false_ne_true)]
    rw [← hs, List.reverse_reverse]

/-- The fixed-point rendering of a nonnegative value, unfolded. -/
theorem formatF_false_eq (c : Nat) (e : Int) :
    formatF ⟨false, c, e⟩ =
      (if 0 ≤ e then natDigits c ++ List.replicate e.toNat '0'
       else if (natDigits c).length ≤ (-e).toNat then
         '0' :: '.' :: (List.replicate ((-e).toNat - (natDigits c).length) '0' ++ natDigits c)
       else (natDigits c).take ((natDigits c).length - (-e).toNat) ++
         '.' :: (natDigits c).drop ((natDigits c).length - (-e).toNat)) := rfl

/-- The rendering of a negative value: a minus sign before the body. -/
theorem formatF_true_eq (c : Nat) (e : Int) :
    formatF ⟨true, c, e⟩ = '-' :: formatF ⟨false, c, e⟩ := rfl

theorem replicate_zero_ne_nil (n : Nat) (h : 0 < n) : List.replicate n '0' ≠ [] := by
  intro hcon
  have := congrArg List.length hcon
  simp at this
  omega

/-- The fixed-point rendering of a positive coefficient is nonempty. -/
theorem formatF_pos_ne_nil (c : Nat) (e : Int) : formatF ⟨false, c, e⟩ ≠ [] := by
  rw [formatF_false_eq]
  split
  · simp [natDigits_ne_nil]
  · split
    · simp
    · simp

/-- The last character of a rendered positive value: `0` when the exponent
is positive, the last coefficient digit otherwise. -/
theorem formatF_pos_getLast (c : Nat) (e : Int) (hc0 : 0 < c) :
    (0 < e → (formatF ⟨false, c, e⟩).getLast? = some '0') ∧
    (e ≤ 0 → (formatF ⟨false, c, e⟩).getLast? = some (Char.ofNat (48 + c % 10))) := by
  have hcn : c ≠ 0 := by omega
  rw [formatF_false_eq]
  constructor
  · intro he
    rw [if_pos (by omega : (0:Int) ≤ e)]
    have ht : 0 < e.toNat := by omega
    rw [List.getLast?_append_of_ne_nil _ (replicate_zero_ne_nil _ ht)]
    obtain ⟨m, hm⟩ : ∃ m, e.toNat = m + 1 := ⟨e.toNat - 1, by omega⟩
    rw [hm, List.replicate_succ']
    exact List.getLast?_concat _
  · intro he
    by_cases he0 : e = 0
    · subst he0
      rw [if_pos (by omega : (0:Int) ≤ (0:Int))]
      simp only [Int.toNat_zero, List.replicate_zero, List.append_nil]
      exact natDigits_getLast c hcn
    · have hlt : e < 0 := by omega
      rw [if_neg (by omega)]
      split
      · show ((['0', '.'] ++ List.replicate ((-e).toNat - (natDigits c).length) '0') ++
            natDigits c).getLast? = _
        rw [List.getLast?_append_of_ne_nil _ (natDigits_ne_nil c)]
        exact natDigits_getLast c hcn
      · next hlen =>
        have hk : 0 < (-e).toNat := by omega
        have hklen : (-e).toNat < (natDigits c).length := by omega
        have hdropnil : (natDigits c).drop ((natDigits c).length - (-e).toNat) ≠ [] := by
          apply List.ne_nil_of_length_pos
          rw [List.length_drop]
          omega
        rw [List.getLast?_append_of_ne_nil _ (by simp)]
        show (['.'] ++ (natDigits c).drop ((natDigits c).length - (-e).toNat)).getLast? = _
        rw [List.getLast?_append_of_ne_nil _ hdropnil]
        have hsplit := List.take_append_drop ((natDigits c).length - (-e).toNat) (natDigits c)
        have h2 : (natDigits c).getLast? =
            ((natDigits c).take ((natDigits c).length - (-e).toNat) ++
              (natDigits c).drop ((natDigits c).length - (-e).toNat)).getLast? := by
          rw [hsplit]
        rw [List.getLast?_append_of_ne_nil _ hdropnil] at h2
        rw [← h2]
        exact natDigits_getLast c hcn

/-- Dot-containment of a rendered positive value is exactly negativity of
the exponent. -/
theorem formatF_pos_contains_dot (c : Nat) (e : Int) :
    (0 ≤ e → (formatF ⟨false, c, e⟩).contains '.' = false) ∧
    (e < 0 → (formatF ⟨false, c, e⟩).contains '.' = true) := by
  rw [formatF_false_eq]
  constructor
  · intro he
    rw [if_pos he]
    rcases hb : (natDigits c ++ List.replicate (Int.toNat e) '0').contains '.' with _ | _
    · rfl
    · exfalso
      have hmem := List.elem_iff.mp hb
      rcases List.mem_append.mp hmem with h1 | h2
      · have := natDigits_chars c '.' h1
        simp at this
      · have := List.eq_of_mem_replicate h2
        simp at this
  · intro he
    rw [if_neg (by omega)]
    split
    · refine List.elem_iff.mpr ?_
      exact List.mem_cons_of_mem _ (List.mem_cons_self _ _)
    · refine List.elem_iff.mpr ?_
      exact List.mem_append_right _ (List.mem_cons_self _ _)

theorem digitsToNat_formatF (c : Nat) (e : Int) (he : 0 ≤ e) :
    digitsToNat (formatF ⟨false, c, e⟩) = c * 10 ^ e.toNat := by
  rw [formatF_false_eq, if_pos he, digitsToNat_append, digitsToNat_replicate_zero,
      digitsToNat_natDigits, List.length_replicate]
  omega

/-- The body rendering contains only digits and the point, never a sign. -/
theorem formatF_false_chars (c : Nat) (e : Int) (ch : Char)
    (hc : ch ∈ formatF ⟨false, c, e⟩) : (ch.isDigit || ch == '.') = true := by
  rw [formatF_false_eq] at hc
  have hds : ∀ x ∈ natDigits c, Char.isDigit x = true := fun x hx => natDigits_chars _ x hx
  split at hc
  · rcases List.mem_append.mp hc with h1 | h2
    · simp [hds ch h1]
    · rw [List.eq_of_mem_replicate h2]; decide
  · split at hc
    · rcases List.mem_cons.mp hc with h0 | hc1
      · subst h0; decide
      · rcases List.mem_cons.mp hc1 with h0 | hc2
        · subst h0; decide
        · rcases List.mem_append.mp hc2 with h1 | h2
          · rw [List.eq_of_mem_replicate h1]; decide
          · simp [hds ch h2]
    · rcases List.mem_append.mp hc with h1 | h2
      · simp [hds ch (List.mem_of_mem_take h1)]
      · rcases List.mem_cons.mp h2 with h0 | hc2
        · subst h0; decide
        · simp [hds ch (List.mem_of_mem_drop hc2)]

theorem formatF_getLast_lift (neg : Bool) (c : Nat) (e : Int) :
    (formatF ⟨neg, c, e⟩).getLast? = (formatF ⟨false, c, e⟩).getLast? := by
  cases neg
  · rfl
  · rw [formatF_true_eq]
    show (['-'] ++ formatF ⟨false, c, e⟩).getLast? = _
    rw [List.getLast?_append_of_ne_nil _ (formatF_pos_ne_nil c e)]

theorem formatF_contains_lift (neg : Bool) (c : Nat) (e : Int) :
    (formatF ⟨neg, c, e⟩).contains '.' = (formatF ⟨false, c, e⟩).contains '.' := by
  cases neg
  · rfl
  · rw [formatF_true_eq]
    show (('.' == '-') || (formatF ⟨false, c, e⟩).contains '.') = _
    simp

/-- The rendering of a reduced positive coefficient never equals the
special strings checked by `format_decimal` and `_decimal_to_string`. -/
theorem formatF_ne_patterns (neg : Bool) (c : Nat) (e : Int)
    (hc0 : 0 < c) (hcm : c % 10 ≠ 0) :
    (formatF ⟨neg, c, e⟩ == ['-', '0']) = false ∧
    (formatF ⟨neg, c, e⟩ == ['-', '0', '.', '0']) = false ∧
    (formatF ⟨neg, c, e⟩ == []) = false ∧
    (formatF ⟨neg, c, e⟩ == ['-']) = false := by
  have hmemneg : ∀ l : Str, '-' ∈ l → formatF ⟨false, c, e⟩ ≠ l := by
    intro l hml heq
    have := formatF_false_chars c e '-' (heq ▸ hml)
    simp at this
  have hr : c % 10 < 10 := Nat.mod_lt c (by norm_num)
  refine ⟨?_, ?_, ?_, ?_⟩
  · rw [beq_eq_false_iff_ne]
    cases neg
    · exact fun heq => hmemneg ['-', '0'] (by decide) heq
    · rw [formatF_true_eq]
      intro heq
      have hbody : formatF ⟨false, c, e⟩ = ['0'] := by
        injection heq
      by_cases he : 0 ≤ e
      · have hval := digitsToNat_formatF c e he
        rw [hbody] at hval
        have h0 : digitsToNat ['0'] = 0 := by decide
        rw [h0] at hval
        have : 0 < c * 10 ^ e.toNat := by positivity
        omega
      · have hdot := (formatF_pos_contains_dot c e).2 (by omega)
        rw [hbody] at hdot
        simp at hdot
  · rw [beq_eq_false_iff_ne]
    cases neg
    · exact fun heq => hmemneg ['-', '0', '.', '0'] (by decide) heq
    · rw [formatF_true_eq]
      intro heq
      have hbody : formatF ⟨false, c, e⟩ = ['0', '.', '0'] := by
        injection heq
      by_cases he : 0 ≤ e
      · have hdot := (formatF_pos_contains_dot c e).1 he
        rw [hbody] at hdot
        simp at hdot
      · have hlast := (formatF_pos_getLast c e hc0).2 (by omega)
        rw [hbody] at hlast
        simp at hlast
        have := digit_char_ne_zero (c % 10) hr hcm
        rw [← hlast] at this
        simp at this
  · rw [beq_eq_false_iff_ne]
    cases neg
    · exact fun heq => (formatF_pos_ne_nil c e) heq
    · rw [formatF_true_eq]
      simp
  · rw [beq_eq_false_iff_ne]
    cases neg
    · exact fun heq => hmemneg ['-'] (by decide) heq
    · rw [formatF_true_eq]
      intro heq
      have hbody : formatF ⟨false, c, e⟩ = [] := by injection heq
      exact (formatF_pos_ne_nil c e) hbody

/-- On a reduced rendering the trailing-zero and trailing-point strips do
nothing. -/
theorem stripchain_noop (neg : Bool) (c : Nat) (e : Int)
    (hc0 : 0 < c) (hcm : c % 10 ≠ 0) :
    (if (formatF ⟨neg, c, e⟩).contains '.' then
        rstrip '.' (rstrip '0' (formatF ⟨neg, c, e⟩))
      else formatF ⟨neg, c, e⟩) = formatF ⟨neg, c, e⟩ := by
  have hr : c % 10 < 10 := Nat.mod_lt c (by norm_num)
  by_cases hdot : (formatF ⟨neg, c, e⟩).contains '.' = true
  · rw [if_pos hdot]
    have he : e < 0 := by
      by_contra hcon
      have h1 := (formatF_pos_contains_dot c e).1 (by omega)
      rw [formatF_contains_lift] at hdot
      rw [h1] at hdot
      exact Bool.false_ne_true hdot
    have hlast : (formatF ⟨neg, c, e⟩).getLast? = some (Char.ofNat (48 + c % 10)) := by
      rw [formatF_getLast_lift]
      exact (formatF_pos_getLast c e hc0).2 (by omega)
    rw [rstrip_noop '0' _ _ hlast (digit_char_ne_zero _ hr hcm)]
    rw [rstrip_noop '.' _ _ hlast (digit_char_ne_dot _ hr)]
  · rw [if_neg hdot]

/-- `normalize` of a zero-coefficient Decimal has zero coefficient. -/
theorem normalizePy_coeff_zero (v : Dec) (h : v.coeff = 0) :
    (normalizePy v).coeff = 0 := by
  unfold normalizePy
  rw [h, decRound_small _ _ _ (by positivity)]
  dsimp only
  rw [if_pos rfl]

/-- `format_decimal` of a Decimal that normalises to a nonzero value is
exactly the fixed-point rendering of the normalised value. -/
theorem formatDecimal_of_pos (v : Dec) (h : 0 < (normalizePy v).coeff) :
    formatDecimal v = formatF (normalizePy v) := by
  obtain ⟨hneg, hsh⟩ := normalizePy_cases v
  rcases hsh with ⟨h1, _⟩ | ⟨h1, hcm, hlt⟩
  · omega
  · rcases hw : normalizePy v with ⟨neg, c, e⟩
    rw [hw] at h1 hcm
    dsimp only at h1 hcm
    unfold formatDecimal
    dsimp only
    rw [hw]
    rw [stripchain_noop neg c e h1 hcm]
    obtain ⟨hp1, hp2, _, _⟩ := formatF_ne_patterns neg c e h1 hcm
    rw [hp1, hp2]
    rfl

/-- `_decimal_to_string` agrees with the rendering on normalised nonzero
values. -/
theorem decimalToString_of_pos (v : Dec) (h : 0 < (normalizePy v).coeff) :
    decimalToString v = formatF (normalizePy v) := by
  obtain ⟨hneg, hsh⟩ := normalizePy_cases v
  rcases hsh with ⟨h1, _⟩ | ⟨h1, hcm, hlt⟩
  · omega
  · rcases hw : normalizePy v with ⟨neg, c, e⟩
    rw [hw] at h1 hcm
    dsimp only at h1 hcm
    unfold decimalToString
    dsimp only
    rw [hw]
    rw [stripchain_noop neg c e h1 hcm]
    obtain ⟨hp1, hp2, hp3, hp4⟩ := formatF_ne_patterns neg c e h1 hcm
    rw [hp1, hp2, hp3, hp4]
    rfl

/-- `format_decimal` of anything that normalises to zero is `"0"`. -/
theorem formatDecimal_of_zero (v : Dec) (h : (normalizePy v).coeff = 0) :
    formatDecimal v = ['0'] := by
  obtain ⟨hneg, hsh⟩ := normalizePy_cases v
  rcases hsh with ⟨h1, h2⟩ | ⟨h1, _, _⟩
  · have hw : normalizePy v = ⟨v.neg, 0, 0⟩ := by
      rcases hnp : normalizePy v with ⟨a, b, cc⟩
      rw [hnp] at h1 h2 hneg
      dsimp only at h1 h2 hneg
      rw [h1, h2, hneg]
    unfold formatDecimal
    dsimp only
    rw [hw]
    rcases hb : v.neg with _ | _ <;> decide
  · omega

/-- Every character of `format_decimal` output is a digit, `-` or `.`. -/
theorem formatDecimal_chars (v : Dec) (ch : Char) (hc : ch ∈ formatDecimal v) :
    (ch.isDigit || ch == '-' || ch == '.') = true := by
  by_cases h0 : (normalizePy v).coeff = 0
  · rw [formatDecimal_of_zero v h0] at hc
    simp at hc
    subst hc
    decide
  · rw [formatDecimal_of_pos v (Nat.pos_of_ne_zero h0)] at hc
    exact formatF_chars _ ch hc

/-- C6: `format_decimal` renders every Decimal in plain non-exponential
notation — only digits, an optional minus and a decimal point, never an
exponent marker — with fractional trailing zeros removed (when a point is
present the last character is a nonzero digit), with no trailing point
left after stripping, and renders any zero, including the negative zeros
`-0` and `-0.0`, as exactly `"0"`. -/
theorem format_decimal_display (v : Dec) :
    (∀ ch ∈ formatDecimal v, (ch.isDigit || ch == '-' || ch == '.') = true) ∧
    ((formatDecimal v).contains '.' = true → ¬((formatDecimal v).getLast? = some '0')) ∧
    ¬((formatDecimal v).getLast? = some '.') ∧
    (v.toRat = 0 → formatDecimal v = ['0']) := by
  refine ⟨formatDecimal_chars v, ?_, ?_, ?_⟩
  · by_cases h0 : (normalizePy v).coeff = 0
    · rw [formatDecimal_of_zero v h0]
      intro hdot
      simp at hdot
    · have hpos := Nat.pos_of_ne_zero h0
      obtain ⟨hneg, hsh⟩ := normalizePy_cases v
      rcases hsh with ⟨h1, _⟩ | ⟨h1, hcm, hlt⟩
      · omega
      · rw [formatDecimal_of_pos v hpos]
        rcases hw : normalizePy v with ⟨neg, c, e⟩
        rw [hw] at h1 hcm
        dsimp only at h1 hcm
        intro hdot
        have he : e < 0 := by
          by_contra hcon
          have hnd := (formatF_pos_contains_dot c e).1 (by omega)
          rw [formatF_contains_lift, hnd] at hdot
          exact Bool.false_ne_true hdot
        have hlast : (formatF ⟨neg, c, e⟩).getLast? = some (Char.ofNat (48 + c % 10)) := by
          rw [formatF_getLast_lift]
          exact (formatF_pos_getLast c e h1).2 (by omega)
        rw [hlast]
        intro heq
        have hch : Char.ofNat (48 + c % 10) = '0' := by injection heq
        have := digit_char_ne_zero (c % 10) (Nat.mod_lt c (by norm_num)) hcm
        rw [hch] at this
        simp at this
  · by_cases h0 : (normalizePy v).coeff = 0
    · rw [formatDecimal_of_zero v h0]
      intro heq
      simp at heq
    · have hpos := Nat.pos_of_ne_zero h0
      obtain ⟨hneg, hsh⟩ := normalizePy_cases v
      rcases hsh with ⟨h1, _⟩ | ⟨h1, hcm, hlt⟩
      · omega
      · rw [formatDecimal_of_pos v hpos]
        rcases hw : normalizePy v with ⟨neg, c, e⟩
        rw [hw] at h1
        dsimp only at h1
        rcases Int.lt_or_le 0 e with he | he
        · have hlast : (formatF ⟨neg, c, e⟩).getLast? = some '0' := by
            rw [formatF_getLast_lift]
            exact (formatF_pos_getLast c e h1).1 he
          rw [hlast]
          intro heq
          have : '0' = '.' := by injection heq
          simp at this
        · have hlast : (formatF ⟨neg, c, e⟩).getLast? = some (Char.ofNat (48 + c % 10)) := by
            rw [formatF_getLast_lift]
            exact (formatF_pos_getLast c e h1).2 he
          rw [hlast]
          intro heq
          have hch : Char.ofNat (48 + c % 10) = '.' := by injection heq
          have := digit_char_ne_dot (c % 10) (Nat.mod_lt c (by norm_num))
          rw [hch] at this
          simp at this
  · intro hrat
    exact formatDecimal_of_zero v
      (normalizePy_coeff_zero v ((Dec.toRat_eq_zero_iff v).mp hrat))

/-- Witness for C6 at the negative zero `Decimal("-0E+5")`. -/
theorem format_decimal_display_witness :
    formatDecimal ⟨true, 0, 5⟩ = ['0'] :=
  (format_decimal_display ⟨true, 0, 5⟩).2.2.2 (by simp [Dec.toRat])

/-- `_decimal_to_string` of anything that normalises to zero is `"0"`. -/
theorem decimalToString_of_zero (v : Dec) (h : (normalizePy v).coeff = 0) :
    decimalToString v = ['0'] := by
  obtain ⟨hneg, hsh⟩ := normalizePy_cases v
  rcases hsh with ⟨h1, h2⟩ | ⟨h1, _, _⟩
  · have hw : normalizePy v = ⟨v.neg, 0, 0⟩ := by
      rcases hnp : normalizePy v with ⟨a, b, cc⟩
      rw [hnp] at h1 h2 hneg
      dsimp only at h1 h2 hneg
      rw [h1, h2, hneg]
    unfold decimalToString
    dsimp only
    rw [hw]
    rcases hb : v.neg with _ | _ <;> decide
  · omega

/-! ### Parsing back a rendered value -/

theorem isDigit_not_dot (c : Char) (h : c.isDigit = true) : (c == '.') = false := by
  rcases hb : c == '.' with _ | _
  · rfl
  · have : c = '.' := eq_of_beq hb
    rw [this] at h
    simp at h

theorem takeWhile_append_all {α : Type} (p : α → Bool) (b : List α) :
    ∀ a : List α, (∀ x ∈ a, p x = true) →
      (a ++ b).takeWhile p = a ++ b.takeWhile p := by
  intro a
  induction a with
  | nil => intro _; simp
  | cons x a ih =>
    intro ha
    rw [List.cons_append, List.takeWhile_cons, if_pos (ha x (List.mem_cons_self _ _)),
      ih (fun y hy => ha y (List.mem_cons_of_mem _ hy)), List.cons_append]

theorem dropWhile_append_all {α : Type} (p : α → Bool) (b : List α) :
    ∀ a : List α, (∀ x ∈ a, p x = true) →
      (a ++ b).dropWhile p = b.dropWhile p := by
  intro a
  induction a with
  | nil => intro _; simp
  | cons x a ih =>
    intro ha
    rw [List.cons_append, List.dropWhile_cons, if_pos (ha x (List.mem_cons_self _ _)),
      ih (fun y hy => ha y (List.mem_cons_of_mem _ hy))]

/-- All-characters guard of the parser holds on a rendered body. -/
theorem formatF_all_guard (c : Nat) (e : Int) :
    ((formatF ⟨false, c, e⟩).all fun ch => ch.isDigit || ch == '.') = true := by
  rw [List.all_eq_true]
  intro x hx
  exact formatF_false_chars c e x hx

theorem formatF_any_digit (c : Nat) (e : Int) :
    ((formatF ⟨false, c, e⟩).any Char.isDigit) = true := by
  rw [List.any_eq_true]
  obtain ⟨d, hd⟩ := List.exists_mem_of_ne_nil _ (natDigits_ne_nil c)
  have hdd := natDigits_chars c d hd
  refine ⟨d, ?_, hdd⟩
  rw [formatF_false_eq]
  split
  · exact List.mem_append_left _ hd
  · split
    · exact List.mem_cons_of_mem _ (List.mem_cons_of_mem _ (List.mem_append_right _ hd))
    · next hlen =>
      rcases List.mem_append.mp ((List.take_append_drop
          ((natDigits c).length - (-e).toNat) (natDigits c)) ▸ hd) with h1 | h2
      · exact List.mem_append_left _ h1
      · exact List.mem_append_right _ (List.mem_cons_of_mem _ h2)

theorem count_dot_digits (l : Str) (h : ∀ x ∈ l, Char.isDigit x = true) :
    l.count '.' = 0 := by
  rw [List.count_eq_zero]
  intro hmem
  have := h '.' hmem
  simp at this

/-- The integer and fraction parts the parser extracts from a rendered
body, with their reassembled value and the fraction length. -/
theorem formatF_parse_parts (c : Nat) (e : Int) :
    digitsToNat (((formatF ⟨false, c, e⟩).takeWhile fun ch => !(ch == '.')) ++
        ((formatF ⟨false, c, e⟩).dropWhile fun ch => !(ch == '.')).tail)
      = c * 10 ^ e.toNat ∧
    -(((((formatF ⟨false, c, e⟩).dropWhile fun ch => !(ch == '.')).tail)).length : Int)
      = min e 0 := by
  have hds : ∀ x ∈ natDigits c, (!(x == '.')) = true := by
    intro x hx
    rw [isDigit_not_dot x (natDigits_chars c x hx)]
    rfl
  by_cases he : 0 ≤ e
  · have hall : ∀ x ∈ formatF ⟨false, c, e⟩, (!(x == '.')) = true := by
      intro x hx
      rcases hbq : x == '.' with _ | _
      · rfl
      · exfalso
        have hxd : x = '.' := eq_of_beq hbq
        have hdot := (formatF_pos_contains_dot c e).1 he
        have : (formatF ⟨false, c, e⟩).contains '.' = true :=
          List.elem_iff.mpr (hxd ▸ hx)
        rw [hdot] at this
        exact Bool.false_ne_true this
    have htake := takeWhile_append_all (fun ch => !(ch == '.')) [] _ hall
    have hdrop := dropWhile_append_all (fun ch => !(ch == '.')) [] _ hall
    simp only [List.append_nil, List.takeWhile_nil, List.dropWhile_nil] at htake hdrop
    rw [htake, hdrop]
    constructor
    · show digitsToNat (formatF ⟨false, c, e⟩ ++ []) = _
      rw [List.append_nil, digitsToNat_formatF c e he]
    · show -((([] : Str).length : Int)) = min e 0
      rw [min_eq_right he]
      simp
  · have hlt : e < 0 := by omega
    have hbody : formatF ⟨false, c, e⟩ =
        (if (natDigits c).length ≤ (-e).toNat then
          '0' :: '.' :: (List.replicate ((-e).toNat - (natDigits c).length) '0' ++ natDigits c)
        else (natDigits c).take ((natDigits c).length - (-e).toNat) ++
          '.' :: (natDigits c).drop ((natDigits c).length - (-e).toNat)) := by
      rw [formatF_false_eq, if_neg he]
    have hcastk : (((-e).toNat : Nat) : Int) = -e := Int.toNat_of_nonneg (by omega)
    have htn : e.toNat = 0 := Int.toNat_of_nonpos (by omega)
    have hmin : min e 0 = e := min_eq_left (by omega)
    rw [hbody]
    split
    · next hlen =>
      rw [List.takeWhile_cons, if_pos (by decide), List.takeWhile_cons, if_neg (by decide)]
      rw [List.dropWhile_cons, if_pos (by decide), List.dropWhile_cons, if_neg (by decide)]
      constructor
      · show digitsToNat (('0' :: []) ++
            (List.replicate ((-e).toNat - (natDigits c).length) '0' ++ natDigits c)) = _
        rw [List.cons_append, List.nil_append, digitsToNat_cons, digitsToNat_append,
          digitsToNat_replicate_zero, digitsToNat_natDigits, htn]
        have h0 : charVal '0' = 0 := by decide
        rw [h0]
        ring
      · show -(((List.replicate ((-e).toNat - (natDigits c).length) '0' ++
            natDigits c).length : Nat) : Int) = min e 0
        rw [hmin, List.length_append, List.length_replicate]
        have : (-e).toNat - (natDigits c).length + (natDigits c).length = (-e).toNat := by
          omega
        rw [this]
        omega
    · next hlen =>
      have htake2 := takeWhile_append_all (fun ch => !(ch == '.'))
        ('.' :: (natDigits c).drop ((natDigits c).length - (-e).toNat))
        ((natDigits c).take ((natDigits c).length - (-e).toNat))
        (fun x hx => hds x (List.mem_of_mem_take hx))
      have hdrop2 := dropWhile_append_all (fun ch => !(ch == '.'))
        ('.' :: (natDigits c).drop ((natDigits c).length - (-e).toNat))
        ((natDigits c).take ((natDigits c).length - (-e).toNat))
        (fun x hx => hds x (List.mem_of_mem_take hx))
      rw [List.takeWhile_cons, if_neg (by decide)] at htake2
      rw [List.dropWhile_cons, if_neg (by decide)] at hdrop2
      rw [List.append_nil] at htake2
      rw [htake2, hdrop2]
      constructor
      · show digitsToNat ((natDigits c).take ((natDigits c).length - (-e).toNat) ++
            (natDigits c).drop ((natDigits c).length - (-e).toNat)) = _
        rw [List.take_append_drop, digitsToNat_natDigits, htn]
        ring
      · show -((((natDigits c).drop ((natDigits c).length - (-e).toNat)).length : Nat) : Int)
            = min e 0
        rw [hmin, List.length_drop]
        have : (natDigits c).length - ((natDigits c).length - (-e).toNat) = (-e).toNat := by
          omega
        rw [this]
        omega

/-- The parser guard chain evaluated on a rendered body. -/
theorem parse_tail_eval (neg : Bool) (c : Nat) (e : Int)
    (hcount : (formatF ⟨false, c, e⟩).count '.' ≤ 1) :
    (if (formatF ⟨false, c, e⟩).isEmpty then (none : Option Dec)
     else if !((formatF ⟨false, c, e⟩).all fun ch => ch.isDigit || ch == '.') then none
     else if (formatF ⟨false, c, e⟩).count '.' > 1 then none
     else if !((formatF ⟨false, c, e⟩).any Char.isDigit) then none
     else
       some ⟨neg,
         digitsToNat (((formatF ⟨false, c, e⟩).takeWhile fun ch => !(ch == '.')) ++
           ((formatF ⟨false, c, e⟩).dropWhile fun ch => !(ch == '.')).tail),
         -(((((formatF ⟨false, c, e⟩).dropWhile fun ch => !(ch == '.')).tail)).length : Int)⟩)
    = some ⟨neg, c * 10 ^ e.toNat, min e 0⟩ := by
  rw [if_neg (by
    intro hE
    exact formatF_pos_ne_nil c e (List.isEmpty_iff.mp hE))]
  rw [if_neg (by rw [formatF_all_guard]; decide)]
  rw [if_neg (by omega)]
  rw [if_neg (by rw [formatF_any_digit]; decide)]
  obtain ⟨h1, h2⟩ := formatF_parse_parts c e
  rw [h1, h2]

/-- Dot-count guard of the parser holds on a rendered body. -/
theorem formatF_count_dot (c : Nat) (e : Int) :
    (formatF ⟨false, c, e⟩).count '.' ≤ 1 := by
  have hds : ∀ x ∈ natDigits c, Char.isDigit x = true := fun x hx => natDigits_chars _ x hx
  have hrep : ∀ (n : Nat) (x : Char), x ∈ List.replicate n '0' → Char.isDigit x = true := by
    intro n x hx
    rw [List.eq_of_mem_replicate hx]
    decide
  rw [formatF_false_eq]
  split
  · rw [List.count_append, count_dot_digits _ hds, count_dot_digits _ (hrep _)]
    omega
  · split
    · rw [List.count_cons, List.count_cons, List.count_append,
        count_dot_digits _ hds, count_dot_digits _ (hrep _)]
      simp
    · rw [List.count_append, List.count_cons,
        count_dot_digits _ (fun x hx => hds x (List.mem_of_mem_take hx)),
        count_dot_digits _ (fun x hx => hds x (List.mem_of_mem_drop hx))]
      simp

theorem formatF_head_digit (c : Nat) (e : Int) :
    ((formatF ⟨false, c, e⟩).head? == some '-') = false ∧
    ((formatF ⟨false, c, e⟩).head? == some '+') = false := by
  rcases hb : formatF ⟨false, c, e⟩ with _ | ⟨d, rest⟩
  · exact absurd hb (formatF_pos_ne_nil c e)
  · have hm : d ∈ formatF ⟨false, c, e⟩ := by rw [hb]; exact List.mem_cons_self _ _
    have hch := formatF_false_chars c e d hm
    constructor
    · rcases hq : (some d == some '-') with _ | _
      · exact hq
      · have : d = '-' := by
          have := eq_of_beq hq
          injection this
        rw [this] at hch
        simp at hch
    · rcases hq : (some d == some '+') with _ | _
      · exact hq
      · have : d = '+' := by
          have := eq_of_beq hq
          injection this
        rw [this] at hch
        simp at hch

theorem parseDec_formatF_false (c : Nat) (e : Int) :
    parseDec (formatF ⟨false, c, e⟩) = some ⟨false, c * 10 ^ e.toNat, min e 0⟩ := by
  obtain ⟨hh1, hh2⟩ := formatF_head_digit c e
  unfold parseDec
  dsimp only
  rw [hh1, hh2]
  exact parse_tail_eval false c e (formatF_count_dot c e)

/-- Parsing back a rendered Decimal recovers the sign, the coefficient
(padded by the rendered trailing zeros for positive exponents) and the
fractional exponent. -/
theorem parseDec_formatF (neg : Bool) (c : Nat) (e : Int) :
    parseDec (formatF ⟨neg, c, e⟩) = some ⟨neg, c * 10 ^ e.toNat, min e 0⟩ := by
  cases neg
  · exact parseDec_formatF_false c e
  · rw [formatF_true_eq]
    exact parse_tail_eval true c e (formatF_count_dot c e)

/-! ### Evaluating a rendered value -/

theorem takeWhile_all {α : Type} (p : α → Bool) (l : List α)
    (h : ∀ x ∈ l, p x = true) : l.takeWhile p = l := by
  have h1 := takeWhile_append_all p [] l h
  simpa using h1

theorem dropWhile_all {α : Type} (p : α → Bool) (l : List α)
    (h : ∀ x ∈ l, p x = true) : l.dropWhile p = [] := by
  have h1 := dropWhile_append_all p [] l h
  simpa using h1

theorem charclass_not_space (x : Char)
    (h : (x.isDigit || x == '-' || x == '.') = true) : (x == ' ') = false := by
  rcases hb : x == ' ' with _ | _
  · rfl
  · have hx : x = ' ' := eq_of_beq hb
    rw [hx] at h
    simp at h

theorem charclass_replacement (x : Char)
    (h : (x.isDigit || x == '-' || x == '.') = true) : REPLACEMENTS x = x := by
  unfold REPLACEMENTS
  have hd : ∀ y : Char, y = '×' ∨ y = '÷' ∨ y = '−' →
      (y.isDigit || y == '-' || y == '.') = false := by
    intro y hy
    rcases hy with hy | hy | hy <;> rw [hy] <;> decide
  rw [if_neg, if_neg, if_neg]
  · intro hx
    have := hd x (Or.inr (Or.inr hx))
    rw [h] at this
    exact absurd this (by decide)
  · intro hx
    have := hd x (Or.inr (Or.inl hx))
    rw [h] at this
    exact absurd this (by decide)
  · intro hx
    have := hd x (Or.inl hx)
    rw [h] at this
    exact absurd this (by decide)

/-- Normalising a string of digits, signs and points does nothing. -/
theorem normalise_id (s : Str)
    (h : ∀ x ∈ s, (x.isDigit || x == '-' || x == '.') = true) :
    normaliseExpression s = s := by
  unfold normaliseExpression
  have hf : s.filter (fun c => !(c == ' ')) = s := by
    rw [List.filter_eq_self]
    intro x hx
    rw [charclass_not_space x (h x hx)]
    rfl
  rw [hf]
  have hm : s.map REPLACEMENTS = s.map id := by
    apply List.map_congr_left
    intro x hx
    rw [charclass_replacement x (h x hx)]
    rfl
  rw [hm, List.map_id]

/-- Scanning a nonempty all-digit-or-dot string yields it as one token. -/
theorem scan_single_number (b : Str) (hb : b ≠ [])
    (hchars : ∀ x ∈ b, digitOrDot x = true) (hcount : b.count '.' ≤ 1) :
    scanTokens b = .ok [b] := by
  rcases b with _ | ⟨c0, rest⟩
  · exact absurd rfl hb
  · show scanAux (c0 :: rest).length (c0 :: rest) = _
    rw [List.length_cons, scanAux]
    rw [if_pos (hchars c0 (List.mem_cons_self _ _))]
    rw [takeWhile_all digitOrDot rest (fun x hx => hchars x (List.mem_cons_of_mem _ hx))]
    rw [dropWhile_all digitOrDot rest (fun x hx => hchars x (List.mem_cons_of_mem _ hx))]
    rw [if_neg (by omega)]
    rw [scanAux]

/-- Scanning a minus sign followed by a number yields the two tokens. -/
theorem scan_neg_number (b : Str) (hb : b ≠ [])
    (hchars : ∀ x ∈ b, digitOrDot x = true) (hcount : b.count '.' ≤ 1) :
    scanTokens ('-' :: b) = .ok [['-'], b] := by
  show scanAux ('-' :: b).length ('-' :: b) = _
  rw [List.length_cons, scanAux]
  rw [if_neg (by decide)]
  rw [if_pos (by decide)]
  rw [show scanAux b.length b = Except.ok [b] from scan_single_number b hb hchars hcount]

theorem beq_singleton_false_of_not_mem (b : Str) (x : Char) (h : x ∉ b) :
    (b == [x]) = false := by
  rcases hb : b == [x] with _ | _
  · rfl
  · exact absurd (eq_of_beq hb ▸ List.mem_singleton_self x) h

theorem formatF_not_mem_minus (c : Nat) (e : Int) : '-' ∉ formatF ⟨false, c, e⟩ := by
  intro hmem
  have := formatF_false_chars c e '-' hmem
  simp at this

theorem formatF_not_mem_pct (c : Nat) (e : Int) : '%' ∉ formatF ⟨false, c, e⟩ := by
  intro hmem
  have := formatF_false_chars c e '%' hmem
  simp at this

theorem formatF_chars3 (c : Nat) (e : Int) (x : Char)
    (hx : x ∈ formatF ⟨false, c, e⟩) : (x.isDigit || x == '-' || x == '.') = true := by
  have h := formatF_false_chars c e x hx
  rcases Bool.or_eq_true _ _ |>.mp h with h1 | h1 <;> simp [h1]

/-- Tokenising a rendered nonnegative value yields a single number token. -/
theorem tokenise_formatF_false (c : Nat) (e : Int) :
    tokenise (formatF ⟨false, c, e⟩) = .ok [formatF ⟨false, c, e⟩] := by
  unfold tokenise
  rw [scan_single_number _ (formatF_pos_ne_nil c e)
    (fun x hx => formatF_false_chars c e x hx) (formatF_count_dot c e)]
  have hnb := beq_singleton_false_of_not_mem _ '-' (formatF_not_mem_minus c e)
  simp [handleUnaryMinus, handleUnaryAux, hnb]

/-- Tokenising a minus sign before a rendered value yields the unary-minus
token and the number token. -/
theorem tokenise_formatF_neg (c : Nat) (e : Int) :
    tokenise ('-' :: formatF ⟨false, c, e⟩) = .ok [uminusTok, formatF ⟨false, c, e⟩] := by
  unfold tokenise
  rw [scan_neg_number _ (formatF_pos_ne_nil c e)
    (fun x hx => formatF_false_chars c e x hx) (formatF_count_dot c e)]
  have hnb := beq_singleton_false_of_not_mem _ '-' (formatF_not_mem_minus c e)
  have hnp := beq_singleton_false_of_not_mem _ '%' (formatF_not_mem_pct c e)
  simp [handleUnaryMinus, handleUnaryAux, hnb, hnp, unaryContext]

theorem isNumber_formatF (c : Nat) (e : Int) :
    isNumber (formatF ⟨false, c, e⟩) = true := by
  unfold isNumber
  rw [if_neg (by
    intro hE
    exact formatF_pos_ne_nil c e (List.isEmpty_iff.mp hE))]
  rw [if_neg (by have := formatF_count_dot c e; omega)]
  rw [if_neg (by
    intro hdotb
    have hd : formatF ⟨false, c, e⟩ = ['.'] := eq_of_beq hdotb
    have hany := formatF_any_digit c e
    rw [hd] at hany
    simp at hany)]
  rw [parseDec_formatF_false c e]
  rfl

theorem toRpn_single (b : Token) (hnum : isNumber b = true) : toRpn [b] = .ok [b] := by
  unfold toRpn toRpnLoop
  rw [if_pos hnum]
  unfold toRpnLoop
  rfl

theorem toRpn_neg_single (b : Token) (hnum : isNumber b = true) :
    toRpn [uminusTok, b] = .ok [b, uminusTok] := by
  unfold toRpn toRpnLoop
  rw [if_neg (by rw [show isNumber uminusTok = false from by decide]; exact Bool.false_ne_true)]
  rw [if_neg (by decide), if_neg (by decide)]
  rw [show OPERATORS uminusTok = some ⟨4, 'R', 1, negFn⟩ from rfl]
  dsimp only [popOps]
  unfold toRpnLoop
  rw [if_pos hnum]
  unfold toRpnLoop
  rfl

theorem evalRpn_single (b : Token) (hnum : isNumber b = true) (v : Dec)
    (hv : parseDec b = some v) : evalRpnLoop [b] [] = .ok v := by
  unfold evalRpnLoop
  rw [if_pos hnum, hv]
  rfl

theorem evalRpn_neg_single (b : Token) (hnum : isNumber b = true) (v : Dec)
    (hv : parseDec b = some v) : evalRpnLoop [b, uminusTok] [] = .ok (decNeg v) := by
  unfold evalRpnLoop
  rw [if_pos hnum, hv]
  unfold evalRpnLoop
  rw [if_neg (by rw [show isNumber uminusTok = false from by decide]; exact Bool.false_ne_true)]
  rw [show OPERATORS uminusTok = some ⟨4, 'R', 1, negFn⟩ from rfl]
  rfl

theorem decNeg_pow_mul (c j : Nat) (e : Int) (hc0 : 0 < c) (hlt : c < 10 ^ PREC) :
    ∃ m, m ≤ j ∧ decNeg ⟨false, c * 10 ^ j, e⟩ = ⟨true, c * 10 ^ (j - m), e + (m : Int)⟩ := by
  obtain ⟨m, hm, hr, _⟩ := decRound_pow_mul true c j e hc0 hlt
  refine ⟨m, hm, ?_⟩
  unfold decNeg
  rw [if_neg (by positivity)]
  exact hr

/-- Evaluating a rendered value yields the same coefficient up to a shift
of trailing zeros into the exponent, with the sign preserved. -/
theorem evaluate_formatF (neg : Bool) (c : Nat) (e : Int)
    (hc0 : 0 < c) (hlt : c < 10 ^ PREC) :
    ∃ j : Nat, evaluate (formatF ⟨neg, c, e⟩) = .ok ⟨neg, c * 10 ^ j, e - (j : Int)⟩ := by
  cases neg
  · refine ⟨e.toNat, ?_⟩
    unfold evaluate
    rw [normalise_id _ (formatF_chars3 c e)]
    rw [tokenise_formatF_false c e]
    dsimp only
    rw [toRpn_single _ (isNumber_formatF c e)]
    dsimp only
    rw [evalRpn_single _ (isNumber_formatF c e) _ (parseDec_formatF_false c e)]
    have hmin : min e 0 = e - (e.toNat : Int) := by omega
    rw [hmin]
  · rw [formatF_true_eq]
    have hch : ∀ x ∈ '-' :: formatF ⟨false, c, e⟩,
        (x.isDigit || x == '-' || x == '.') = true := by
      intro x hx
      rcases List.mem_cons.mp hx with h1 | h1
      · subst h1; decide
      · exact formatF_chars3 c e x h1
    obtain ⟨m, hm, hneg⟩ := decNeg_pow_mul c e.toNat (min e 0) hc0 hlt
    refine ⟨e.toNat - m, ?_⟩
    unfold evaluate
    rw [normalise_id _ hch]
    rw [tokenise_formatF_neg c e]
    dsimp only
    rw [toRpn_neg_single _ (isNumber_formatF c e)]
    dsimp only
    rw [evalRpn_neg_single _ (isNumber_formatF c e) _ (parseDec_formatF_false c e)]
    rw [hneg]
    have hexp : min e 0 + (m : Int) = e - ((e.toNat - m : Nat) : Int) := by omega
    rw [hexp]

theorem Dec.toRat_shift (neg : Bool) (c j : Nat) (e : Int) :
    Dec.toRat ⟨neg, c * 10 ^ j, e⟩ = Dec.toRat ⟨neg, c, e + (j : Int)⟩ := by
  unfold Dec.toRat
  dsimp only
  rw [zpow_add₀ (by norm_num : (10 : ℚ) ≠ 0)]
  push_cast
  rw [zpow_natCast]
  ring

theorem Dec.toRat_unshift_min (neg : Bool) (c : Nat) (e : Int) :
    Dec.toRat ⟨neg, c * 10 ^ e.toNat, min e 0⟩ = Dec.toRat ⟨neg, c, e⟩ := by
  have h := Dec.toRat_shift neg c e.toNat (min e 0)
  rw [show (min e 0) + (e.toNat : Int) = e from by omega] at h
  exact h

/-- Normalising a value whose coefficient fits in the working precision does
not change the represented rational. -/
theorem normalizePy_toRat (d : Dec) (hc : d.coeff < 10 ^ PREC) :
    Dec.toRat (normalizePy d) = Dec.toRat d := by
  rcases d with ⟨neg, c, e⟩
  dsimp only at hc
  rcases Nat.eq_zero_or_pos c with h0 | h0
  · subst h0
    rw [normalizePy_zero]
    simp [Dec.toRat]
  · obtain ⟨c0, t, heq, hcm, hc0⟩ := exists_strip c h0
    have hle : c0 ≤ c := by
      rw [heq]
      exact Nat.le_mul_of_pos_right c0 (by positivity)
    have hc0lt : c0 < 10 ^ PREC := lt_of_le_of_lt hle hc
    rw [show (⟨neg, c, e⟩ : Dec) = ⟨neg, c0 * 10 ^ t, e⟩ from by rw [heq]]
    rw [normalizePy_pow_mul neg c0 t e hc0 hcm hc0lt]
    exact (Dec.toRat_shift neg c0 t e).symm

theorem stripZerosAux_pos (fuel : Nat) :
    ∀ (c : Nat) (e : Int), 0 < c → 0 < (stripZerosAux fuel c e).1 := by
  induction fuel with
  | zero => intro c e hc; exact hc
  | succ f ih =>
    intro c e hc
    unfold stripZerosAux
    split
    · next hm =>
      exact ih (c / 10) (e + 1)
        (Nat.div_pos (Nat.le_of_dvd hc (Nat.dvd_of_mod_eq_zero hm)) (by norm_num))
    · exact hc

theorem normalizePy_coeff_pos (d : Dec) (h0 : 0 < d.coeff) :
    0 < (normalizePy d).coeff := by
  unfold normalizePy
  dsimp only
  have hr : 0 < (decRound d.neg d.coeff d.exp).coeff := decRound_pos _ _ _ h0
  split
  · next hz => omega
  · dsimp only
    exact stripZerosAux_pos _ _ _ hr

/-- C5: the pipeline computes in exact decimal arithmetic, so rendering a
result introduces no binary floating-point artifact.  Concretely,
`format_decimal(evaluate("0.1+0.2"))` is exactly the string `"0.3"`; and in
general, for any expression whose evaluation succeeds with a result within
the 28-digit working precision, the rendered string parses back to a Decimal
denoting exactly the same rational number as the result. -/
theorem round_trip_exact :
    ((evaluate ("0.1+0.2".data)).map formatDecimal = .ok ("0.3".data)) ∧
    ∀ (expr : Str) (d : Dec), evaluate expr = .ok d → d.coeff < 10 ^ PREC →
      ∃ v : Dec, parseDec (formatDecimal d) = some v ∧ Dec.toRat v = Dec.toRat d := by
  constructor
  · decide
  · intro expr d hev hc
    by_cases h0 : (normalizePy d).coeff = 0
    · have hd0 : d.coeff = 0 := by
        by_contra hcon
        have := normalizePy_coeff_pos d (Nat.pos_of_ne_zero hcon)
        omega
      refine ⟨⟨false, 0, 0⟩, ?_, ?_⟩
      · rw [formatDecimal_of_zero d h0]
        decide
      · rcases d with ⟨neg, cc, ee⟩
        dsimp only at hd0
        subst hd0
        simp [Dec.toRat]
    · have hpos : 0 < (normalizePy d).coeff := Nat.pos_of_ne_zero h0
      have hfd := formatDecimal_of_pos d hpos
      have hRat := normalizePy_toRat d hc
      rcases hw : normalizePy d with ⟨neg, cN, eN⟩
      rw [hw] at hfd hpos hRat
      dsimp only at hpos
      refine ⟨⟨neg, cN * 10 ^ eN.toNat, min eN 0⟩, ?_, ?_⟩
      · rw [hfd]
        exact parseDec_formatF neg cN eN
      · rw [Dec.toRat_unshift_min]
        exact hRat

/-- Witness for C5: the concrete result of `0.1+0.2` (three tenths) parses
back from its rendering with the exact same rational value. -/
theorem round_trip_exact_witness :
    ∃ v : Dec, parseDec (formatDecimal ⟨false, 3, -1⟩) = some v ∧
      Dec.toRat v = Dec.toRat ⟨false, 3, -1⟩ :=
  round_trip_exact.2 ("0.1+0.2".data) ⟨false, 3, -1⟩ (by decide) (by decide)

theorem joinTokens_foldl (ts : List Token) :
    ∀ a : Str, ts.foldl (fun acc t => acc ++ t) a = a ++ ts.foldl (fun acc t => acc ++ t) [] := by
  induction ts with
  | nil => intro a; simp
  | cons t ts ih =>
    intro a
    simp only [List.foldl_cons]
    rw [ih (a ++ t), ih ([] ++ t)]
    simp

theorem joinTokens_cons (t : Token) (ts : List Token) :
    joinTokens (t :: ts) = t ++ joinTokens ts := by
  unfold joinTokens
  simp only [List.foldl_cons]
  rw [joinTokens_foldl ts ([] ++ t)]
  simp

theorem joinTokens_singleton (t : Token) : joinTokens [t] = t := by
  rw [joinTokens_cons]
  simp [joinTokens]

theorem joinTokens_eq_nil (ts : List Token) (h : joinTokens ts = []) :
    ∀ t ∈ ts, t = [] := by
  induction ts with
  | nil => intro t ht; simp at ht
  | cons u ts ih =>
    rw [joinTokens_cons] at h
    have hsplit := List.append_eq_nil.mp h
    intro t ht
    rcases List.mem_cons.mp ht with h1 | h1
    · exact h1 ▸ hsplit.1
    · exact ih hsplit.2 t h1

theorem dts_ne_nil (v : Dec) : decimalToString v ≠ [] := by
  unfold decimalToString
  dsimp only
  split
  · split
    · decide
    · split
      · decide
      · rename_i hA hB
        intro hcon
        rw [hcon] at hA
        simp at hA
  · split
    · decide
    · split
      · decide
      · rename_i hA hB
        intro hcon
        rw [hcon] at hA
        simp at hA

theorem isEmpty_false_of_ne_nil (l : Str) (h : l ≠ []) : l.isEmpty = false := by
  cases l with
  | nil => exact absurd rfl h
  | cons a t => rfl

theorem formatDecimal_ne_nil (v : Dec) : formatDecimal v ≠ [] := by
  by_cases h0 : (normalizePy v).coeff = 0
  · rw [formatDecimal_of_zero v h0]
    decide
  · have hpos : 0 < (normalizePy v).coeff := Nat.pos_of_ne_zero h0
    rw [formatDecimal_of_pos v hpos]
    rcases hw : normalizePy v with ⟨neg, c, e⟩
    cases neg
    · exact formatF_pos_ne_nil c e
    · rw [formatF_true_eq]
      exact List.cons_ne_nil _ _

/-- A state with a blank or lone-minus input buffer, no committed text and no
sticky error is a fixed point of the equals handler. -/
theorem calculateResult_stall (s : SessionState) (he : s.errorState = false)
    (hj : joinTokens s.tokens = [])
    (hci : s.currentInput = [] ∨ s.currentInput = ['-']) :
    calculateResult s = s := by
  have hlastnil : s.tokens.getLastD [] = [] := by
    rcases List.mem_cons.mp (List.getLastD_mem_cons s.tokens []) with h | h
    · exact h
    · exact joinTokens_eq_nil s.tokens hj _ h
  have hcontains : opValues.contains (s.tokens.getLastD []) = false := by
    rw [hlastnil]
    decide
  have hmid : (if !s.currentInput.isEmpty then (pushCurrentToTokens s).1
      else if !s.tokens.isEmpty && opValues.contains (s.tokens.getLastD []) then
        { s with tokens := s.tokens.dropLast }
      else s) = s := by
    rcases hci with hci | hci
    · have hc1 : (!s.currentInput.isEmpty) = false := by rw [hci]; rfl
      rw [hc1, if_neg Bool.false_ne_true]
      have hc2 : (!s.tokens.isEmpty && opValues.contains (s.tokens.getLastD [])) = false := by
        rw [hcontains, Bool.and_false]
      rw [hc2, if_neg Bool.false_ne_true]
    · have hc1 : (!s.currentInput.isEmpty) = true := by rw [hci]; rfl
      rw [hc1, if_pos rfl]
      unfold pushCurrentToTokens
      have hg : (s.currentInput.isEmpty || s.currentInput == ['-']) = true := by
        rw [hci]
        rfl
      rw [hg, if_pos rfl]
  unfold calculateResult
  rw [if_neg (show ¬s.errorState = true from by rw [he]; exact Bool.false_ne_true)]
  dsimp only
  rw [hmid, hj]
  rw [if_pos (show (List.isEmpty ([] : Str)) = true from rfl)]

/-- Rendering depends only on the error flag and the input buffer when the
buffer is nonempty. -/
theorem displayText_of_input (s t : SessionState)
    (hes : s.errorState = false) (het : t.errorState = false)
    (hne : s.currentInput ≠ []) (heq : t.currentInput = s.currentInput) :
    displayText t = displayText s := by
  have hb : s.currentInput.isEmpty = false := isEmpty_false_of_ne_nil _ hne
  unfold displayText displayCandidate
  rw [hes, het, heq, hb]
  rfl

/-- Pressing equals on a clean state whose input buffer holds a rendered
result re-commits it, re-evaluates it, and ends with the same rendered
string in the buffer. -/
theorem calculateResult_result_state (s : SessionState) (r : Dec)
    (he : s.errorState = false) (hci : s.currentInput = formatDecimal r)
    (ht : s.tokens = []) :
    (calculateResult s).errorState = false ∧
    (calculateResult s).currentInput = formatDecimal r := by
  by_cases h0 : (normalizePy r).coeff = 0
  · have hfd : formatDecimal r = ['0'] := formatDecimal_of_zero r h0
    rw [hfd] at hci
    rw [hfd]
    have hpush : pushCurrentToTokens s =
        ({ s with tokens := s.tokens ++ [['0']], lastValue := ⟨false, 0, 0⟩,
                  lastOutput := formatDecimal ⟨false, 0, 0⟩, currentInput := [] }, true) := by
      unfold pushCurrentToTokens
      have hg : (s.currentInput.isEmpty || s.currentInput == ['-']) = false := by
        rw [hci]
        rfl
      rw [hg, if_neg Bool.false_ne_true]
      rw [hci]
      rw [show parseDec ['0'] = some (⟨false, 0, 0⟩ : Dec) from by decide]
      dsimp only
      rw [show decimalToString (⟨false, 0, 0⟩ : Dec) = ['0'] from by decide]
    unfold calculateResult
    rw [if_neg (show ¬s.errorState = true from by rw [he]; exact Bool.false_ne_true)]
    dsimp only
    have hc1 : (!s.currentInput.isEmpty) = true := by rw [hci]; rfl
    rw [hc1, if_pos rfl]
    rw [hpush]
    dsimp only
    rw [ht, List.nil_append]
    rw [show joinTokens [['0']] = ['0'] from joinTokens_singleton _]
    rw [show (List.isEmpty ['0']) = false from rfl, if_neg Bool.false_ne_true]
    rw [show evaluate ['0'] = Except.ok (⟨false, 0, 0⟩ : Dec) from by decide]
    dsimp only
    refine ⟨he, ?_⟩
    rw [show formatDecimal (⟨false, 0, 0⟩ : Dec) = ['0'] from by decide]
  · have hpos0 : 0 < (normalizePy r).coeff := Nat.pos_of_ne_zero h0
    have hfd := formatDecimal_of_pos r hpos0
    obtain ⟨hneg, hsh⟩ := normalizePy_cases r
    rcases hsh with ⟨hz, _⟩ | ⟨hc0, hcm, hlt⟩
    · omega
    rcases hw : normalizePy r with ⟨neg, cN, eN⟩
    rw [hw] at hfd hc0 hcm hlt
    dsimp only at hc0 hcm hlt
    have hpat := formatF_ne_patterns neg cN eN hc0 hcm
    have hnn : formatF ⟨neg, cN, eN⟩ ≠ [] := by
      intro hcon
      have hx := hpat.2.2.1
      rw [hcon] at hx
      simp at hx
    have hie : (formatF ⟨neg, cN, eN⟩).isEmpty = false := isEmpty_false_of_ne_nil _ hnn
    have hnm : (formatF ⟨neg, cN, eN⟩ == ['-']) = false := hpat.2.2.2
    have hparse : parseDec (formatF ⟨neg, cN, eN⟩) =
        some ⟨neg, cN * 10 ^ eN.toNat, min eN 0⟩ := parseDec_formatF neg cN eN
    have hnv : normalizePy ⟨neg, cN * 10 ^ eN.toNat, min eN 0⟩ = ⟨neg, cN, eN⟩ := by
      rw [normalizePy_pow_mul neg cN eN.toNat (min eN 0) hc0 hcm hlt]
      rw [show (min eN 0) + (eN.toNat : Int) = eN from by omega]
    have hcanon : decimalToString ⟨neg, cN * 10 ^ eN.toNat, min eN 0⟩ =
        formatF ⟨neg, cN, eN⟩ := by
      rw [decimalToString_of_pos _ (by rw [hnv]; exact hc0)]
      rw [hnv]
    obtain ⟨j, hev⟩ := evaluate_formatF neg cN eN hc0 hlt
    have hnew : normalizePy ⟨neg, cN * 10 ^ j, eN - (j : Int)⟩ = ⟨neg, cN, eN⟩ := by
      rw [normalizePy_pow_mul neg cN j (eN - (j : Int)) hc0 hcm hlt]
      rw [show eN - (j : Int) + (j : Int) = eN from by omega]
    have hfd3 : formatDecimal ⟨neg, cN * 10 ^ j, eN - (j : Int)⟩ = formatF ⟨neg, cN, eN⟩ := by
      rw [formatDecimal_of_pos _ (by rw [hnew]; exact hc0)]
      rw [hnew]
    rw [hfd] at hci
    rw [hfd]
    have hpush : pushCurrentToTokens s =
        ({ s with tokens := s.tokens ++ [formatF ⟨neg, cN, eN⟩],
                  lastValue := ⟨neg, cN * 10 ^ eN.toNat, min eN 0⟩,
                  lastOutput := formatDecimal ⟨neg, cN * 10 ^ eN.toNat, min eN 0⟩,
                  currentInput := [] }, true) := by
      unfold pushCurrentToTokens
      have hg : (s.currentInput.isEmpty || s.currentInput == ['-']) = false := by
        rw [hci, hie, hnm]
        rfl
      rw [hg, if_neg Bool.false_ne_true]
      rw [hci, hparse]
      dsimp only
      rw [hcanon]
    unfold calculateResult
    rw [if_neg (show ¬s.errorState = true from by rw [he]; exact Bool.false_ne_true)]
    dsimp only
    have hc1 : (!s.currentInput.isEmpty) = true := by rw [hci, hie]; rfl
    rw [hc1, if_pos rfl]
    rw [hpush]
    dsimp only
    rw [ht, List.nil_append]
    rw [show joinTokens [formatF ⟨neg, cN, eN⟩] = formatF ⟨neg, cN, eN⟩ from
      joinTokens_singleton _]
    rw [hie, if_neg Bool.false_ne_true]
    rw [hev]
    dsimp only
    exact ⟨he, hfd3⟩

/-- C7: pressing equals twice in a row on an already-evaluated, non-error
session state leaves the display text unchanged: the second equals commits
the formatted result, re-evaluates it, and produces the same display
string as the first. -/
theorem equals_idempotent (s0 : SessionState)
    (h1 : (calculateResult s0).justEvaluated = true)
    (h2 : (calculateResult s0).errorState = false) :
    displayText (calculateResult (calculateResult s0)) =
      displayText (calculateResult s0) := by
  by_cases herr : s0.errorState = true
  · exfalso
    have hcr : calculateResult s0 = clearAllState := by
      unfold calculateResult
      rw [if_pos herr]
    rw [hcr] at h1
    exact absurd h1 (by decide)
  · have he0 : s0.errorState = false := by
      rcases h : s0.errorState with _ | _
      · rfl
      · exact absurd h herr
    set s := (if !s0.currentInput.isEmpty then (pushCurrentToTokens s0).1
        else if !s0.tokens.isEmpty && opValues.contains (s0.tokens.getLastD []) then
          { s0 with tokens := s0.tokens.dropLast }
        else s0) with hs
    have hcr : calculateResult s0 =
        (if (joinTokens s.tokens).isEmpty then s
         else
           match evaluate (joinTokens s.tokens) with
           | .error _ => showError s
           | .ok result =>
             { s with lastValue := result, currentInput := formatDecimal result,
                      lastOutput := formatDecimal result, tokens := [],
                      justEvaluated := true }) := by
      unfold calculateResult
      rw [if_neg (show ¬s0.errorState = true from by rw [he0]; exact Bool.false_ne_true)]
    rcases hexp : (joinTokens s.tokens).isEmpty with _ | _
    · rw [hexp, if_neg Bool.false_ne_true] at hcr
      rcases hev : evaluate (joinTokens s.tokens) with err | r
      · rw [hev] at hcr
        dsimp only at hcr
        rw [hcr] at h1
        simp [showError] at h1
      · rw [hev] at hcr
        dsimp only at hcr
        have hse : s.errorState = false := by
          rw [hcr] at h2
          exact h2
        obtain ⟨hE, hC⟩ := calculateResult_result_state
          { s with lastValue := r, currentInput := formatDecimal r,
                   lastOutput := formatDecimal r, tokens := [], justEvaluated := true }
          r hse rfl rfl
        rw [hcr]
        exact displayText_of_input _ _ hse hE (formatDecimal_ne_nil r) hC
    · rw [hexp, if_pos rfl] at hcr
      have hj : joinTokens s.tokens = [] := by
        rcases hjt : joinTokens s.tokens with _ | ⟨a, t⟩
        · rfl
        · rw [hjt] at hexp
          simp at hexp
      rw [hcr] at h1 h2 ⊢
      have hci : s.currentInput = [] ∨ s.currentInput = ['-'] := by
        rcases hcin : s0.currentInput.isEmpty with _ | _
        · have hs1 : s = (pushCurrentToTokens s0).1 := by
            rw [hs]
            have hb : (!s0.currentInput.isEmpty) = true := by rw [hcin]; rfl
            rw [hb, if_pos rfl]
          rcases hb2 : s0.currentInput == ['-'] with _ | _
          · rcases hp : parseDec s0.currentInput with _ | val
            · have hserr : s = showError s0 := by
                rw [hs1]
                unfold pushCurrentToTokens
                have hg : (s0.currentInput.isEmpty || s0.currentInput == ['-']) = false := by
                  rw [hcin, hb2]
                  rfl
                rw [hg, if_neg Bool.false_ne_true, hp]
              rw [hserr] at h1
              simp [showError] at h1
            · exfalso
              have hstok : s.tokens = s0.tokens ++ [decimalToString val] := by
                rw [hs1]
                unfold pushCurrentToTokens
                have hg : (s0.currentInput.isEmpty || s0.currentInput == ['-']) = false := by
                  rw [hcin, hb2]
                  rfl
                rw [hg, if_neg Bool.false_ne_true, hp]
              have hmem : decimalToString val ∈ s.tokens := by
                rw [hstok]
                exact List.mem_append_right _ (List.mem_singleton_self _)
              exact dts_ne_nil val (joinTokens_eq_nil s.tokens hj _ hmem)
          · right
            have hseq : s = s0 := by
              rw [hs1]
              unfold pushCurrentToTokens
              have hg : (s0.currentInput.isEmpty || s0.currentInput == ['-']) = true := by
                rw [hb2]
                simp
              rw [hg, if_pos rfl]
            rw [hseq]
            exact eq_of_beq hb2
        · left
          have hnil0 : s0.currentInput = [] := List.isEmpty_iff.mp hcin
          rw [hs]
          have hb : (!s0.currentInput.isEmpty) = false := by rw [hcin]; rfl
          rw [hb, if_neg Bool.false_ne_true]
          split
          · exact hnil0
          · exact hnil0
      rw [calculateResult_stall s h2 hj hci]

/-- Witness for C7: entering `5` and pressing equals twice shows `5` both
times. -/
theorem equals_idempotent_witness :
    displayText (calculateResult (calculateResult
      { clearAllState with currentInput := ['5'] })) =
      displayText (calculateResult { clearAllState with currentInput := ['5'] }) :=
  equals_idempotent { clearAllState with currentInput := ['5'] } (by decide) (by decide)

end Calc

